import Mathlib

/-!
Verification development for the xrs-os kernel.

Shallow embedding of the kernel data structures and algorithms that the
claims concern, translated from the Rust sources:
  * src/src/proc/signal.rs        (signal sets, pending queues, sigaction)
  * src/crates/bitmap/src/lib.rs  (bitmap with find_next_zero)
  * src/crates/naive_fs           (inode/block allocator, inode read/write)
  * src/crates/mm                 (bump frame allocator, page tables, memory)
  * src/crates/executor/src/fifo.rs (FIFO executor)
  * src/src/proc/file.rs          (file descriptor seek)

Machine integers are modelled as Nat (with explicit 2^64 masks where the
code relies on word width); fallible operations return Except/Option.
-/

namespace XrsOs

/-! ## Signal sets (src/src/proc/signal.rs, struct SignalSet(u64)) -/

namespace SignalSet

/-- All 64 bits set: the u64 value `!0`. -/
def u64max : Nat := 2 ^ 64 - 1

/-- Bitwise complement on u64 (`!x`). -/
def inv (s : Nat) : Nat := u64max ^^^ s

/-- SignalSet::empty. -/
def empty : Nat := 0

/-- SignalSet::sigmask: `1 << (sig - 1)`. -/
def sigmask (sig : Nat) : Nat := 1 <<< (sig - 1)

/-- SignalSet::intersection: `self.0 & other.0`. -/
def intersection (a b : Nat) : Nat := a &&& b

/-- SignalSet::union: `self.0 | other.0`. -/
def union (a b : Nat) : Nat := a ||| b

/-- SignalSet::difference: `self.0 & !other.0`. -/
def difference (a b : Nat) : Nat := a &&& inv b

/-- SignalSet::is_emptry: `self.0 == 0`. -/
def isEmptry (a : Nat) : Bool := a == 0

/-- SignalSet::contains: `!Self::sigmask(sig).intersection(self).is_emptry()`. -/
def contains (a : Nat) (sig : Nat) : Bool := !(isEmptry (intersection (sigmask sig) a))

/-- SignalSet::delset: `self.0 &= !Self::sigmask(sig).0`. -/
def delset (a : Nat) (sig : Nat) : Nat := a &&& inv (sigmask sig)

end SignalSet

/-! ## Signal numbers (num_enum Signo and its constant masks) -/

namespace Signo

def SIGHUP : Nat := 1
def SIGILL : Nat := 4
def SIGTRAP : Nat := 5
def SIGBUS : Nat := 7
def SIGFPE : Nat := 8
def SIGKILL : Nat := 9
def SIGUSR1 : Nat := 10
def SIGSEGV : Nat := 11
def SIGUSR2 : Nat := 12
def SIGCHLD : Nat := 17
def SIGCONT : Nat := 18
def SIGSTOP : Nat := 19
def SIGTSTP : Nat := 20
def SIGTTIN : Nat := 21
def SIGTTOU : Nat := 22
def SIGURG : Nat := 23
def SIGWINCH : Nat := 28
def SIGSYS : Nat := 31
def SIGRTMIN : Nat := 32
def SIGRTMAX : Nat := 64

def MASK_SIG_KERNEL_ONLY : Nat :=
  SignalSet.union (SignalSet.sigmask SIGKILL) (SignalSet.sigmask SIGSTOP)

/-- Signo::kernel_only. -/
def kernelOnly (sig : Nat) : Bool := SignalSet.contains MASK_SIG_KERNEL_ONLY sig

def MASK_SIG_KERNEL_IGNORE : Nat :=
  SignalSet.union
    (SignalSet.union (SignalSet.sigmask SIGCONT) (SignalSet.sigmask SIGCHLD))
    (SignalSet.union (SignalSet.sigmask SIGWINCH) (SignalSet.sigmask SIGURG))

/-- Signo::kernel_ignore. -/
def kernelIgnore (sig : Nat) : Bool := SignalSet.contains MASK_SIG_KERNEL_IGNORE sig

def MASK_SIG_KERNEL_STOP : Nat :=
  SignalSet.union
    (SignalSet.union (SignalSet.sigmask SIGSTOP) (SignalSet.sigmask SIGTSTP))
    (SignalSet.union (SignalSet.sigmask SIGTTIN) (SignalSet.sigmask SIGTTOU))

/-- Signo::kernel_stop. -/
def kernelStop (sig : Nat) : Bool := SignalSet.contains MASK_SIG_KERNEL_STOP sig

/-- Signo::legacy: `self <= SIGRTMIN`. -/
def legacy (sig : Nat) : Bool := sig ≤ SIGRTMIN

end Signo

/-! ## Pending signal queues (struct Pending { signal, queue }) -/

/-- The payload of a queued signal (struct Info); only the fields the
algorithms inspect are kept: the signal number and the si_code. -/
structure Info where
  sig : Nat
  code : Int
  deriving DecidableEq, Repr

/-- si_code threshold SI_USER. -/
def SI_USER : Int := 0

def SIGPENDING_QUEUE_CAP : Nat := 11

/-- Pending = { signal : SignalSet, queue : LinkedList of Info }. -/
structure Pending where
  signal : Nat
  queue : List Info
  deriving DecidableEq, Repr

namespace Pending

/-- Pending::new. -/
def new : Pending := ⟨SignalSet.empty, []⟩

/-- Pending::contains. -/
def containsSig (p : Pending) (sig : Nat) : Bool := SignalSet.contains p.signal sig

/-- Pending::push. Note the guard in the source: the bitmask is unioned with
`sigmask(info.sig)` only when `self.signal` already `contains` it. -/
def push (p : Pending) (info : Info) : Except Info Pending :=
  if p.queue.length ≥ SIGPENDING_QUEUE_CAP then
    Except.error info
  else
    let signal :=
      if SignalSet.contains p.signal info.sig then
        SignalSet.union p.signal (SignalSet.sigmask info.sig)
      else
        p.signal
    Except.ok { signal := signal, queue := p.queue ++ [info] }

/-- The cursor loop of Pending::flush_by_mask.  The state is the list plus a
cursor position, with position = length denoting the ghost element.  On
`remove_current` the cursor stays on the index of the removed element's
successor; `move_next` then advances, wrapping from the ghost to the front
(Rust LinkedList cursors are circular).  The loop exits when the cursor
rests on the ghost.  The fuel argument dominates the loop's running time;
with the fuel supplied by flushByMask it never runs out. -/
def flushQueueGo (mask : Nat) : Nat → List Info → Nat → List Info
  | 0, l, _ => l
  | fuel + 1, l, p =>
    if h : p < l.length then
      let info := l.get ⟨p, h⟩
      if SignalSet.contains mask info.sig then
        let l2 := l.eraseIdx p
        flushQueueGo mask fuel l2 ((p + 1) % (l2.length + 1))
      else
        flushQueueGo mask fuel l ((p + 1) % (l.length + 1))
    else l

/-- Pending::flush_by_mask. -/
def flushByMask (p : Pending) (mask : Nat) : Pending :=
  let m := SignalSet.intersection p.signal mask
  if SignalSet.isEmptry m then p
  else
    { signal := SignalSet.difference p.signal mask,
      queue := flushQueueGo mask ((p.queue.length + 1) * (p.queue.length + 2)) p.queue 0 }

/-- The summary invariant claimed by the specification: the bitmask holds
signal s iff the queue holds at least one Info with that signal number. -/
def summaryInvariant (p : Pending) : Prop :=
  ∀ s, 1 ≤ s → s ≤ 64 →
    (SignalSet.contains p.signal s = true ↔ ∃ info ∈ p.queue, info.sig = s)

end Pending

/-! ## C1: pending-queue summary invariant -/

/-- An Info as produced by a user kill of SIGUSR1. -/
def usr1Info : Info := { sig := Signo.SIGUSR1, code := 0 }

/-- C1: the claim states that after any sequence of push/dequeue/flush the
bitmask contains s iff the queue holds an entry with sig = s.  The source of
Pending::push unions `sigmask(info.sig)` into the bitmask only when the
bitmask already contains that signal (a no-op), so a push into an empty
Pending leaves the bitmask empty while the queue holds the entry: the
invariant is violated after a single push. -/
theorem C1_push_violates_summary_invariant :
    Pending.push Pending.new usr1Info =
      Except.ok { signal := 0, queue := [usr1Info] } ∧
    (∃ info ∈ ({ signal := 0, queue := [usr1Info] } : Pending).queue,
      info.sig = Signo.SIGUSR1) ∧
    SignalSet.contains ({ signal := 0, queue := [usr1Info] } : Pending).signal
      Signo.SIGUSR1 = false ∧
    ¬ Pending.summaryInvariant { signal := 0, queue := [usr1Info] } := by
  refine ⟨rfl, ⟨usr1Info, by simp, rfl⟩, by decide, fun h => ?_⟩
  have h10 := (h Signo.SIGUSR1 (by decide) (by decide)).mpr ⟨usr1Info, by simp, rfl⟩
  exact absurd h10 (by decide)

/-! ## C4: bump frame allocator (src/crates/mm/src/frame/allocator.rs) -/

/-- BumpAllocator state; the source's field `end` is called `endAddr` here
(`end` is reserved in Lean).  The FRAME_SIZE const generic is passed as the
first argument of the operations. -/
structure BumpAllocator where
  next : Nat
  start : Nat
  endAddr : Nat
  allocated : Nat
  deriving DecidableEq, Repr

namespace BumpAllocator

/-- BumpAllocator::alloc: `if self.next.0 < self.end.0 - FRAME_SIZE { ... }`.
The usize subtraction is modelled by truncated Nat subtraction; the claims
are stated under `frameSize ≤ endAddr`, where the two agree. -/
def alloc (frameSize : Nat) (a : BumpAllocator) : Option (Nat × BumpAllocator) :=
  if a.next < a.endAddr - frameSize then
    some (a.next,
      { a with next := a.next + frameSize, allocated := a.allocated + 1 })
  else
    none

end BumpAllocator

/-- C4 counterexample: with next = 0, end = frame_size = 4096 the last frame
[0, 4096) fits entirely (next + frame_size ≤ end), so the claim demands
Some(frame at 0); the code's strict comparison `next < end - frame_size`
yields None. -/
theorem C4_bump_alloc_last_frame_counterexample :
    (0 : Nat) + 4096 ≤ 4096 ∧
    BumpAllocator.alloc 4096 ⟨0, 0, 4096, 0⟩ = none := by
  constructor
  · decide
  · rfl

/-- C4 amended: alloc returns Some(frame starting at next), advancing next by
frame_size, exactly when next + frame_size is strictly less than end (so the
frame ending exactly at end is NOT allocatable); otherwise None.  Stated for
frameSize ≤ endAddr, where the source's usize subtraction cannot underflow. -/
theorem C4_bump_alloc_strict_characterization
    (frameSize : Nat) (a : BumpAllocator) (h : frameSize ≤ a.endAddr) :
    (a.next + frameSize < a.endAddr →
      BumpAllocator.alloc frameSize a =
        some (a.next,
          { a with next := a.next + frameSize, allocated := a.allocated + 1 })) ∧
    (¬ a.next + frameSize < a.endAddr →
      BumpAllocator.alloc frameSize a = none) := by
  constructor
  · intro hlt
    unfold BumpAllocator.alloc
    rw [if_pos (by omega)]
  · intro hge
    unfold BumpAllocator.alloc
    rw [if_neg (by omega)]

/-- C4 witness: the amended characterization evaluated at a concrete
allocator covering both branches. -/
theorem C4_bump_alloc_strict_characterization_witness :
    BumpAllocator.alloc 4096 ⟨0, 0, 8192, 0⟩ = some (0, ⟨4096, 0, 8192, 1⟩) ∧
    BumpAllocator.alloc 4096 ⟨4096, 0, 8192, 0⟩ = none := by
  constructor
  · have h := (C4_bump_alloc_strict_characterization 4096 ⟨0, 0, 8192, 0⟩
      (by decide)).1 (by decide)
    simpa using h
  · exact (C4_bump_alloc_strict_characterization 4096 ⟨4096, 0, 8192, 0⟩
      (by decide)).2 (by decide)

/-! ## Bitmap (src/crates/bitmap/src/lib.rs) -/

/-- Bitmap(Box of u64 words); each word is a Nat kept below 2^64. -/
structure Bitmap where
  words : List Nat
  deriving DecidableEq, Repr

namespace Bitmap

def u64MAX : Nat := 2 ^ 64 - 1

/-- Bitmap::bit_mask: `(1 << (u64::BITS - 1)) >> (offset & (u64::BITS - 1))`.
Bit order: the MSB of word 0 is bit 0. -/
def bitMask (offset : Nat) : Nat := (1 <<< 63) >>> (offset &&& 63)

/-- Bitmap::test.  The source indexes `self.0[idx]`; out-of-range indexing
(which would panic) is modelled with getD 0, and all claims are stated for
in-range offsets. -/
def test (b : Bitmap) (offset : Nat) : Bool :=
  let mask := bitMask offset
  let row := b.words.getD (offset / 64) 0
  (row &&& mask) == mask

/-- Bitmap::test_and_set: returns the previous bit value and the updated
bitmap (List.set is a no-op out of range, where the source would panic). -/
def testAndSet (b : Bitmap) (offset : Nat) (val : Bool) : Bool × Bitmap :=
  let mask := bitMask offset
  let idx := offset / 64
  let row := b.words.getD idx 0
  ((row &&& mask) == mask,
    ⟨b.words.set idx (if val then row ||| mask else row &&& (u64MAX ^^^ mask))⟩)

/-- Helper loop for u64::leading_ones: count set bits from the MSB downward
starting at in-word position k, with enough fuel to cover the word. -/
def leadingOnesGo (w : Nat) : Nat → Nat → Nat
  | 0, k => k
  | fuel + 1, k => if w.testBit (63 - k) then leadingOnesGo w fuel (k + 1) else k

/-- u64::leading_ones: the number of leading one bits of the 64-bit word. -/
def leadingOnes64 (w : Nat) : Nat := leadingOnesGo w 64 0

/-- div_round_up from the bitmap crate. -/
def divRoundUp (n d : Nat) : Nat := (n + (d - 1)) / d

/-- The whole-word scan loop of find_next_zero:
`for i in div_round_up(offset, 64)..len { .. }`. -/
def findScan : List Nat → Nat → Option Nat
  | [], _ => none
  | w :: rest, i =>
    if w == 0 then some (i * 64)
    else if w == u64MAX then findScan rest (i + 1)
    else some (i * 64 + leadingOnes64 w)

/-- The `next_zero` computation of Bitmap::find_next_zero, before the end
filter: the in-word probe when the offset falls inside a word, then the
whole-word scan loop. -/
def findNextZeroRaw (b : Bitmap) (offset : Nat) : Option Nat :=
  let col := offset &&& 63
  let nz1 : Option Nat :=
    if col ≠ 0 then
      let row := offset / 64
      let num := b.words.getD row 0 ||| ((1 <<< col) - 1) <<< (64 - col)
      if num ≠ u64MAX then some (row * 64 + leadingOnes64 num) else none
    else none
  match nz1 with
  | some v => some v
  | none => findScan (b.words.drop (divRoundUp offset 64)) (divRoundUp offset 64)

/-- Bitmap::find_next_zero: the raw search filtered by `end`
(`next_zero.and_then(..)`). -/
def findNextZero (b : Bitmap) (offset : Nat) (endv : Option Nat) : Option Nat :=
  match findNextZeroRaw b offset with
  | some nz =>
    match endv with
    | some e => if nz ≥ e then none else some nz
    | none => some nz
  | none => none

/-! Arithmetic facts about the word/bit encoding. -/

theorem land_63_eq_mod (x : Nat) : x &&& 63 = x % 64 := by
  have h63 : (63 : Nat) = 2 ^ 6 - 1 := by norm_num
  rw [h63, Nat.and_pow_two_sub_one_eq_mod]

theorem bitMask_eq (offset : Nat) : bitMask offset = 2 ^ (63 - offset % 64) := by
  unfold bitMask
  rw [land_63_eq_mod, Nat.shiftLeft_eq, Nat.shiftRight_eq_div_pow, one_mul]
  exact Nat.pow_div (by omega) (by omega)

theorem and_two_pow_eq_self_iff (row t : Nat) :
    ((row &&& 2 ^ t) == 2 ^ t) = row.testBit t := by
  cases h : row.testBit t with
  | true =>
    have : row &&& 2 ^ t = 2 ^ t := by
      apply Nat.eq_of_testBit_eq
      intro j
      rw [Nat.testBit_and, Nat.testBit_two_pow]
      by_cases hj : t = j
      · subst hj
        simp [h]
      · simp [hj]
    simp [this]
  | false =>
    have : row &&& 2 ^ t ≠ 2 ^ t := by
      intro hc
      have := congrArg (fun x => x.testBit t) hc
      simp only [Nat.testBit_and, Nat.testBit_two_pow] at this
      simp [h] at this
    simp [this]

theorem test_eq_testBit (b : Bitmap) (i : Nat) :
    test b i = (b.words.getD (i / 64) 0).testBit (63 - i % 64) := by
  unfold test
  rw [bitMask_eq, and_two_pow_eq_self_iff]

/-! leading_ones. -/

theorem leadingOnesGo_le (w : Nat) :
    ∀ fuel k, leadingOnesGo w fuel k ≤ k + fuel := by
  intro fuel
  induction fuel with
  | zero => intro k; simp [leadingOnesGo]
  | succ fuel ih =>
    intro k
    unfold leadingOnesGo
    by_cases hb : w.testBit (63 - k)
    · rw [if_pos hb]
      have := ih (k + 1)
      omega
    · rw [if_neg hb]
      omega

theorem leadingOnesGo_ge (w : Nat) :
    ∀ fuel k, k ≤ leadingOnesGo w fuel k := by
  intro fuel
  induction fuel with
  | zero => intro k; simp [leadingOnesGo]
  | succ fuel ih =>
    intro k
    unfold leadingOnesGo
    by_cases hb : w.testBit (63 - k)
    · rw [if_pos hb]
      have := ih (k + 1)
      omega
    · rw [if_neg hb]

theorem leadingOnesGo_ones (w : Nat) :
    ∀ fuel k j, k ≤ j → j < leadingOnesGo w fuel k → w.testBit (63 - j) = true := by
  intro fuel
  induction fuel with
  | zero =>
    intro k j hk hj
    simp [leadingOnesGo] at hj
    omega
  | succ fuel ih =>
    intro k j hk hj
    unfold leadingOnesGo at hj
    by_cases hb : w.testBit (63 - k)
    · rw [if_pos hb] at hj
      rcases Nat.eq_or_lt_of_le hk with heq | hlt
      · subst heq; exact hb
      · exact ih (k + 1) j hlt hj
    · rw [if_neg hb] at hj
      omega

theorem leadingOnesGo_zero_at (w : Nat) :
    ∀ fuel k, leadingOnesGo w fuel k < k + fuel →
      w.testBit (63 - leadingOnesGo w fuel k) = false := by
  intro fuel
  induction fuel with
  | zero =>
    intro k h
    simp [leadingOnesGo] at h
  | succ fuel ih =>
    intro k h
    unfold leadingOnesGo at h ⊢
    by_cases hb : w.testBit (63 - k)
    · rw [if_pos hb] at h ⊢
      exact ih (k + 1) (by omega)
    · rw [if_neg hb] at h ⊢
      exact Bool.not_eq_true _ ▸ (by simpa using hb)

theorem leadingOnes64_le (w : Nat) : leadingOnes64 w ≤ 64 :=
  leadingOnesGo_le w 64 0

theorem leadingOnes64_ones (w : Nat) {j : Nat} (hj : j < leadingOnes64 w) :
    w.testBit (63 - j) = true :=
  leadingOnesGo_ones w 64 0 j (Nat.zero_le j) hj

theorem leadingOnes64_zero_at (w : Nat) (h : leadingOnes64 w < 64) :
    w.testBit (63 - leadingOnes64 w) = false :=
  leadingOnesGo_zero_at w 64 0 (by simpa using h)

theorem leadingOnes64_lt_of_ne (w : Nat) (hw : w < 2 ^ 64) (hne : w ≠ u64MAX) :
    leadingOnes64 w < 64 := by
  rcases Nat.lt_or_ge (leadingOnes64 w) 64 with h | h
  · exact h
  exfalso
  apply hne
  apply Nat.eq_of_testBit_eq
  intro i
  unfold u64MAX
  rw [Nat.testBit_two_pow_sub_one]
  by_cases hi : i < 64
  · have := leadingOnes64_ones w (j := 63 - i) (by omega)
    have h63 : 63 - (63 - i) = i := by omega
    rw [h63] at this
    simp [this, hi]
  · have hbit := Nat.testBit_lt_two_pow
      (x := w) (i := i) (lt_of_lt_of_le hw (Nat.pow_le_pow_right (by omega) (by omega)))
    simp [hbit, hi]

theorem drop_cons_lt {l : List Nat} {s w : Nat} {rest : List Nat}
    (h : l.drop s = w :: rest) : s < l.length := by
  have hlen := congrArg List.length h
  simp only [List.length_drop, List.length_cons] at hlen
  omega

theorem getD_of_drop_cons {l : List Nat} {s w : Nat} {rest : List Nat}
    (h : l.drop s = w :: rest) : l.getD s 0 = w := by
  have h0 : (l.drop s)[0]? = some w := by rw [h]; simp
  rw [List.getElem?_drop] at h0
  simp only [List.getD_eq_getElem?_getD]
  simp only [Nat.add_zero] at h0
  rw [h0]
  rfl

theorem drop_succ_of_drop_cons {l : List Nat} {s w : Nat} {rest : List Nat}
    (h : l.drop s = w :: rest) : l.drop (s + 1) = rest := by
  have := List.drop_drop 1 s l
  rw [h] at this
  simpa using this.symm

/-- Characterization of the whole-word scan loop: starting at word index s,
it returns the smallest bit index at or after 64*s whose bit is clear, or
none when all remaining bits are set. -/
theorem findScan_spec (b : Bitmap) (hw : ∀ w ∈ b.words, w < 2 ^ 64) :
    ∀ (ws : List Nat) (s : Nat), b.words.drop s = ws →
    match findScan ws s with
    | some r => 64 * s ≤ r ∧ r < 64 * b.words.length ∧ test b r = false ∧
        (∀ j, 64 * s ≤ j → j < r → test b j = true)
    | none => ∀ j, 64 * s ≤ j → j < 64 * b.words.length → test b j = true := by
  intro ws
  induction ws with
  | nil =>
    intro s hdrop
    simp only [findScan]
    intro j hj1 hj2
    have hlen := congrArg List.length hdrop
    simp only [List.length_drop, List.length_nil] at hlen
    omega
  | cons w rest ih =>
    intro s hdrop
    have hs : s < b.words.length := drop_cons_lt hdrop
    have hword : b.words.getD s 0 = w := getD_of_drop_cons hdrop
    have hwlt : w < 2 ^ 64 :=
      hw w (List.mem_of_mem_drop (hdrop ▸ List.mem_cons_self w rest))
    by_cases h0 : w = 0
    · have heq : findScan (w :: rest) s = some (s * 64) := by
        have hb0 : (w == 0) = true := beq_iff_eq.mpr h0
        simp [findScan, hb0]
      rw [heq]
      refine ⟨by omega, by omega, ?_, ?_⟩
      · rw [test_eq_testBit]
        have e1 : s * 64 / 64 = s := by omega
        rw [e1, hword, h0]
        exact Nat.zero_testBit _
      · intro j hj1 hj2
        omega
    · by_cases hM : w = u64MAX
      · have heq : findScan (w :: rest) s = findScan rest (s + 1) := by
          have hb0 : (w == 0) = false := beq_eq_false_iff_ne.mpr h0
          have hbM : (w == u64MAX) = true := beq_iff_eq.mpr hM
          simp [findScan, hb0, hbM]
        rw [heq]
        have hIH := ih (s + 1) (drop_succ_of_drop_cons hdrop)
        have hrow : ∀ j, 64 * s ≤ j → j < 64 * (s + 1) → test b j = true := by
          intro j hj1 hj2
          rw [test_eq_testBit]
          have e1 : j / 64 = s := by omega
          rw [e1, hword, hM]
          unfold u64MAX
          rw [Nat.testBit_two_pow_sub_one]
          have : 63 - j % 64 < 64 := by omega
          simp [this]
        cases hres : findScan rest (s + 1) with
        | none =>
          rw [hres] at hIH
          intro j hj1 hj2
          by_cases hj : j < 64 * (s + 1)
          · exact hrow j hj1 hj
          · exact hIH j (by omega) hj2
        | some r =>
          rw [hres] at hIH
          obtain ⟨hr1, hr2, hr3, hr4⟩ := hIH
          refine ⟨by omega, hr2, hr3, ?_⟩
          intro j hj1 hj2
          by_cases hj : j < 64 * (s + 1)
          · exact hrow j hj1 hj
          · exact hr4 j (by omega) hj2
      · have heq : findScan (w :: rest) s = some (s * 64 + leadingOnes64 w) := by
          have hb0 : (w == 0) = false := beq_eq_false_iff_ne.mpr h0
          have hbM : (w == u64MAX) = false := beq_eq_false_iff_ne.mpr hM
          simp [findScan, hb0, hbM]
        rw [heq]
        have hlo : leadingOnes64 w < 64 := leadingOnes64_lt_of_ne w hwlt hM
        refine ⟨by omega, by omega, ?_, ?_⟩
        · rw [test_eq_testBit]
          have e1 : (s * 64 + leadingOnes64 w) / 64 = s := by omega
          have e2 : (s * 64 + leadingOnes64 w) % 64 = leadingOnes64 w := by omega
          rw [e1, e2, hword]
          exact leadingOnes64_zero_at w hlo
        · intro j hj1 hj2
          rw [test_eq_testBit]
          have e1 : j / 64 = s := by omega
          rw [e1, hword]
          have e2 : j % 64 = j - s * 64 := by omega
          rw [e2]
          exact leadingOnes64_ones w (by omega)

theorem maskedNum_testBit (w col m : Nat) (hcol1 : 1 ≤ col) (hcol2 : col ≤ 63)
    (hm : m < 64) :
    (w ||| ((1 <<< col) - 1) <<< (64 - col)).testBit (63 - m)
      = (w.testBit (63 - m) || decide (m < col)) := by
  rw [Nat.testBit_or]
  congr 1
  rw [Nat.testBit_shiftLeft]
  have h1 : (1 : Nat) <<< col = 2 ^ col := by rw [Nat.shiftLeft_eq, one_mul]
  rw [h1, Nat.testBit_two_pow_sub_one]
  by_cases hmc : m < col
  · simp [show 64 - col ≤ 63 - m by omega, show 63 - m - (64 - col) < col by omega, hmc]
  · simp [show ¬(64 - col ≤ 63 - m) by omega, hmc]

theorem maskedNum_lt (w col : Nat) (hw : w < 2 ^ 64) (hcol2 : col ≤ 63) :
    w ||| ((1 <<< col) - 1) <<< (64 - col) < 2 ^ 64 := by
  apply Nat.or_lt_two_pow hw
  rw [Nat.shiftLeft_eq, Nat.shiftLeft_eq, one_mul]
  calc (2 ^ col - 1) * 2 ^ (64 - col)
      < 2 ^ col * 2 ^ (64 - col) := by
        apply Nat.mul_lt_mul_of_lt_of_le
        · have hp : 0 < 2 ^ col := Nat.pos_pow_of_pos _ (by omega)
          omega
        · exact Nat.le_refl _
        · exact Nat.pos_pow_of_pos _ (by omega)
    _ = 2 ^ 64 := by rw [← pow_add]; congr 1; omega

/-- Characterization of the raw (end-free) find_next_zero search. -/
theorem findNextZeroRaw_spec (b : Bitmap) (offset : Nat)
    (hoff : offset ≤ 64 * b.words.length) (hw : ∀ w ∈ b.words, w < 2 ^ 64) :
    match findNextZeroRaw b offset with
    | some i => offset ≤ i ∧ i < 64 * b.words.length ∧ test b i = false ∧
        (∀ j, offset ≤ j → j < i → test b j = true)
    | none => ∀ j, offset ≤ j → j < 64 * b.words.length → test b j = true := by
  by_cases hcol : offset % 64 = 0
  · have heq : findNextZeroRaw b offset =
        findScan (b.words.drop (offset / 64)) (offset / 64) := by
      unfold findNextZeroRaw
      rw [land_63_eq_mod]
      have hdr : divRoundUp offset 64 = offset / 64 := by
        unfold divRoundUp; omega
      simp [hcol, hdr]
    rw [heq]
    have hfs := findScan_spec b hw (b.words.drop (offset / 64)) (offset / 64) rfl
    have he : 64 * (offset / 64) = offset := by omega
    cases hres : findScan (b.words.drop (offset / 64)) (offset / 64) with
    | none =>
      rw [hres] at hfs
      intro j hj1 hj2
      exact hfs j (by omega) hj2
    | some r =>
      rw [hres] at hfs
      obtain ⟨hr1, hr2, hr3, hr4⟩ := hfs
      exact ⟨by omega, hr2, hr3, fun j hj1 hj2 => hr4 j (by omega) hj2⟩
  · -- the offset falls inside a word
    have hc1 : 1 ≤ offset % 64 := by omega
    have hc2 : offset % 64 ≤ 63 := by omega
    have hrowlt : offset / 64 < b.words.length := by
      rcases Nat.lt_or_ge offset (64 * b.words.length) with h | h
      · omega
      · have : offset = 64 * b.words.length := by omega
        rw [this] at hcol
        omega
    have hword_mem : b.words.getD (offset / 64) 0 ∈ b.words := by
      have : b.words.getD (offset / 64) 0 = b.words[offset / 64] := by
        simp [List.getD_eq_getElem?_getD, List.getElem?_eq_getElem hrowlt]
      rw [this]
      exact List.getElem_mem hrowlt
    have hwlt : b.words.getD (offset / 64) 0 < 2 ^ 64 := hw _ hword_mem
    set w := b.words.getD (offset / 64) 0 with hwdef
    set col := offset % 64 with hcoldef
    set num := w ||| ((1 <<< col) - 1) <<< (64 - col) with hnumdef
    have hnumlt : num < 2 ^ 64 := maskedNum_lt w col hwlt hc2
    have hnbit : ∀ m, m < 64 →
        num.testBit (63 - m) = (w.testBit (63 - m) || decide (m < col)) :=
      fun m hm => maskedNum_testBit w col m hc1 hc2 hm
    by_cases hMAX : num = u64MAX
    · -- word full at and after col: fall through to the scan from the next word
      have heq : findNextZeroRaw b offset =
          findScan (b.words.drop (offset / 64 + 1)) (offset / 64 + 1) := by
        simp only [findNextZeroRaw]
        rw [land_63_eq_mod]
        have hdr : divRoundUp offset 64 = offset / 64 + 1 := by
          unfold divRoundUp; omega
        rw [← hcoldef, ← hwdef, ← hnumdef, hdr]
        simp [hcol, hMAX]
      rw [heq]
      have hrow : ∀ j, offset ≤ j → j < 64 * (offset / 64 + 1) → test b j = true := by
        intro j hj1 hj2
        rw [test_eq_testBit]
        have e1 : j / 64 = offset / 64 := by omega
        rw [e1, ← hwdef]
        have hm : j % 64 < 64 := by omega
        have hmc : col ≤ j % 64 := by omega
        have := hnbit (j % 64) hm
        rw [hMAX] at this
        unfold u64MAX at this
        rw [Nat.testBit_two_pow_sub_one] at this
        have h64 : 63 - j % 64 < 64 := by omega
        simp only [h64, decide_True] at this
        have hnc : decide (j % 64 < col) = false := by simp; omega
        rw [hnc, Bool.or_false] at this
        exact this.symm
      have hfs := findScan_spec b hw (b.words.drop (offset / 64 + 1)) (offset / 64 + 1) rfl
      cases hres : findScan (b.words.drop (offset / 64 + 1)) (offset / 64 + 1) with
      | none =>
        rw [hres] at hfs
        intro j hj1 hj2
        by_cases hj : j < 64 * (offset / 64 + 1)
        · exact hrow j hj1 hj
        · exact hfs j (by omega) hj2
      | some r =>
        rw [hres] at hfs
        obtain ⟨hr1, hr2, hr3, hr4⟩ := hfs
        refine ⟨by omega, hr2, hr3, ?_⟩
        intro j hj1 hj2
        by_cases hj : j < 64 * (offset / 64 + 1)
        · exact hrow j hj1 hj
        · exact hr4 j (by omega) hj2
    · -- a zero exists at or after col within the word
      have heq : findNextZeroRaw b offset =
          some (offset / 64 * 64 + leadingOnes64 num) := by
        simp only [findNextZeroRaw]
        rw [land_63_eq_mod]
        rw [← hcoldef, ← hwdef, ← hnumdef]
        simp [hcol, hMAX]
      rw [heq]
      have hlo : leadingOnes64 num < 64 := leadingOnes64_lt_of_ne num hnumlt hMAX
      have hlocol : col ≤ leadingOnes64 num := by
        by_contra hcon
        push_neg at hcon
        have hz := leadingOnes64_zero_at num hlo
        have := hnbit (leadingOnes64 num) hlo
        rw [hz] at this
        have : decide (leadingOnes64 num < col) = false := by
          rcases Bool.or_eq_false_iff.mp this.symm with ⟨_, h2⟩
          exact h2
        simp at this
        omega
      have hofs : offset = offset / 64 * 64 + col := by omega
      refine ⟨by omega, by omega, ?_, ?_⟩
      · rw [test_eq_testBit]
        have e1 : (offset / 64 * 64 + leadingOnes64 num) / 64 = offset / 64 := by omega
        have e2 : (offset / 64 * 64 + leadingOnes64 num) % 64 = leadingOnes64 num := by
          omega
        rw [e1, e2, ← hwdef]
        have hz := leadingOnes64_zero_at num hlo
        have := hnbit (leadingOnes64 num) hlo
        rw [hz] at this
        rcases Bool.or_eq_false_iff.mp this.symm with ⟨h1, _⟩
        exact h1
      · intro j hj1 hj2
        rw [test_eq_testBit]
        have e1 : j / 64 = offset / 64 := by omega
        rw [e1, ← hwdef]
        have hm : j % 64 < 64 := by omega
        have hmlo : j % 64 < leadingOnes64 num := by omega
        have hone := leadingOnes64_ones num (j := j % 64) hmlo
        have := hnbit (j % 64) hm
        rw [hone] at this
        rcases Bool.or_eq_true_iff.mp this.symm with h1 | h2
        · exact h1
        · have hmc : col ≤ j % 64 := by omega
          simp at h2
          omega

/-- find_next_zero, success case: the result is the smallest in-range
cleared bit index at or after offset, and it is below end when given. -/
theorem findNextZero_some_spec (b : Bitmap) (offset : Nat) (endv : Option Nat)
    (i : Nat) (hoff : offset ≤ 64 * b.words.length)
    (hw : ∀ w ∈ b.words, w < 2 ^ 64)
    (hres : findNextZero b offset endv = some i) :
    offset ≤ i ∧ i < 64 * b.words.length ∧ test b i = false ∧
      (∀ e, endv = some e → i < e) ∧
      (∀ j, offset ≤ j → j < i → test b j = true) := by
  have hraw := findNextZeroRaw_spec b offset hoff hw
  unfold findNextZero at hres
  cases hr : findNextZeroRaw b offset with
  | none =>
    rw [hr] at hres
    simp at hres
  | some nz =>
    rw [hr] at hres hraw
    obtain ⟨h1, h2, h3, h4⟩ := hraw
    cases endv with
    | none =>
      simp only [Option.some.injEq] at hres
      subst hres
      exact ⟨h1, h2, h3, fun e he => Option.noConfusion he, h4⟩
    | some e =>
      simp only [ge_iff_le] at hres
      by_cases hge : e ≤ nz
      · simp only [if_pos hge] at hres
        simp at hres
      · simp only [if_neg hge] at hres
        simp only [Option.some.injEq] at hres
        subst hres
        refine ⟨h1, h2, h3, ?_, h4⟩
        intro e2 he2
        injection he2 with he2
        omega

/-- find_next_zero, failure case: every in-range bit at or after offset
that also lies below end (when given) is set. -/
theorem findNextZero_none_spec (b : Bitmap) (offset : Nat) (endv : Option Nat)
    (hoff : offset ≤ 64 * b.words.length)
    (hw : ∀ w ∈ b.words, w < 2 ^ 64)
    (hres : findNextZero b offset endv = none) :
    ∀ j, offset ≤ j → j < 64 * b.words.length →
      (∀ e, endv = some e → j < e) → test b j = true := by
  have hraw := findNextZeroRaw_spec b offset hoff hw
  unfold findNextZero at hres
  cases hr : findNextZeroRaw b offset with
  | none =>
    rw [hr] at hraw
    exact fun j hj1 hj2 _ => hraw j hj1 hj2
  | some nz =>
    rw [hr] at hres hraw
    obtain ⟨h1, h2, h3, h4⟩ := hraw
    cases endv with
    | none => simp at hres
    | some e =>
      simp only [ge_iff_le] at hres
      by_cases hge : e ≤ nz
      · intro j hj1 hj2 hje
        have hje2 := hje e rfl
        exact h4 j hj1 (by omega)
      · simp only [if_neg hge] at hres
        simp at hres

theorem getD_set_self {l : List Nat} {i v : Nat} (h : i < l.length) :
    (l.set i v).getD i 0 = v := by
  simp [List.getD_eq_getElem?_getD, List.getElem?_set_self h]

theorem getD_set_ne {l : List Nat} {i j v : Nat} (h : i ≠ j) :
    (l.set i v).getD j 0 = l.getD j 0 := by
  simp [List.getD_eq_getElem?_getD, List.getElem?_set_ne h]

theorem u64MAX_testBit {t : Nat} (h : t < 64) : u64MAX.testBit t = true := by
  unfold u64MAX
  rw [Nat.testBit_two_pow_sub_one]
  simpa using h

/-- Pointwise effect of test_and_set on the bits of the bitmap, for an
in-range offset. -/
theorem test_testAndSet (b : Bitmap) (off j : Nat) (val : Bool)
    (hoff : off < 64 * b.words.length) :
    test (testAndSet b off val).2 j = if j = off then val else test b j := by
  have hidx : off / 64 < b.words.length := by omega
  simp only [testAndSet]
  rw [test_eq_testBit, test_eq_testBit, bitMask_eq]
  by_cases hrow : j / 64 = off / 64
  · rw [hrow, getD_set_self hidx]
    by_cases hcolj : j % 64 = off % 64
    · have hj : j = off := by omega
      subst hj
      rw [if_pos rfl]
      cases val
      · simp only [Bool.false_eq_true, if_false]
        rw [Nat.testBit_and, Nat.testBit_xor, Nat.testBit_two_pow_self,
          u64MAX_testBit (by omega)]
        simp
      · simp only [if_true]
        rw [Nat.testBit_or, Nat.testBit_two_pow_self]
        simp
    · have hj : j ≠ off := by omega
      rw [if_neg hj]
      have hne : (63 : Nat) - off % 64 ≠ 63 - j % 64 := by omega
      cases val
      · simp only [Bool.false_eq_true, if_false]
        rw [Nat.testBit_and, Nat.testBit_xor, Nat.testBit_two_pow_of_ne hne,
          u64MAX_testBit (by omega)]
        simp
      · simp only [if_true]
        rw [Nat.testBit_or, Nat.testBit_two_pow_of_ne hne]
        simp
  · have hj : j ≠ off := by omega
    rw [if_neg hj, getD_set_ne (fun hc => hrow hc.symm)]

/-- The boolean returned by test_and_set is the previous bit value. -/
theorem testAndSet_fst (b : Bitmap) (off : Nat) (val : Bool) :
    (testAndSet b off val).1 = test b off := rfl

theorem length_testAndSet (b : Bitmap) (off : Nat) (val : Bool) :
    ((testAndSet b off val).2).words.length = b.words.length := by
  simp [testAndSet]

/-- All words stay below 2^64 across test_and_set. -/
theorem wordsBounded_testAndSet (b : Bitmap) (off : Nat) (val : Bool)
    (h : ∀ w ∈ b.words, w < 2 ^ 64) :
    ∀ w ∈ ((testAndSet b off val).2).words, w < 2 ^ 64 := by
  simp only [testAndSet]
  intro w hw
  rcases List.mem_or_eq_of_mem_set hw with hmem | heq
  · exact h w hmem
  · subst heq
    have hrow : b.words.getD (off / 64) 0 < 2 ^ 64 := by
      by_cases hin : off / 64 < b.words.length
      · apply h
        have : b.words.getD (off / 64) 0 = b.words[off / 64] := by
          simp [List.getD_eq_getElem?_getD, List.getElem?_eq_getElem hin]
        rw [this]
        exact List.getElem_mem hin
      · have : b.words.getD (off / 64) 0 = 0 := by
          rw [List.getD_eq_getElem?_getD,
            List.getElem?_eq_none (by omega : b.words.length ≤ off / 64)]
          rfl
        rw [this]
        exact Nat.pos_pow_of_pos _ (by omega)
    have hmask : bitMask off < 2 ^ 64 := by
      rw [bitMask_eq]
      exact Nat.pow_lt_pow_right (by omega) (by omega)
    cases val
    · simp only [Bool.false_eq_true, if_false]
      exact Nat.and_lt_two_pow _ (Nat.xor_lt_two_pow (by unfold u64MAX; omega) hmask)
    · simp only [if_true]
      exact Nat.or_lt_two_pow hrow hmask

/-- If a clear bit exists at an out-of-range offset query the word defaults
to 0; when the stored word would be indexed out of range the previous value
reads as false. -/
theorem test_out_of_range (b : Bitmap) (off : Nat)
    (h : ¬ off / 64 < b.words.length) : test b off = false := by
  rw [test_eq_testBit]
  have : b.words.getD (off / 64) 0 = 0 := by
    rw [List.getD_eq_getElem?_getD,
      List.getElem?_eq_none (by omega : b.words.length ≤ off / 64)]
    rfl
  rw [this]
  exact Nat.zero_testBit _

/-- set is the identity out of range, so test_and_set(_, false) on an
out-of-range offset leaves every bit unchanged. -/
theorem test_testAndSet_oor (b : Bitmap) (off j : Nat) (val : Bool)
    (h : ¬ off / 64 < b.words.length) :
    test (testAndSet b off val).2 j = test b j := by
  simp only [testAndSet]
  rw [test_eq_testBit, test_eq_testBit]
  rw [List.set_eq_of_length_le (by omega)]

end Bitmap

/-- C6: find_next_zero(offset, end) returns the smallest index i at or after
offset whose bit is clear, below end when given (bits before offset inside
offset's word are treated as set and never returned, which the
characterization reflects by i being at least offset); it returns None when
no such zero exists before end (or before the word capacity when end is
None).  In particular, on a 32767-bit bitmap (512 words) with bits
0..=32766 set it returns Some 32767, and with bit 32767 also set it
returns None. -/
theorem C6_find_next_zero_characterization :
    (∀ (b : Bitmap) (offset : Nat) (endv : Option Nat) (i : Nat),
        offset ≤ 64 * b.words.length →
        (∀ w ∈ b.words, w < 2 ^ 64) →
        Bitmap.findNextZero b offset endv = some i →
        offset ≤ i ∧ i < 64 * b.words.length ∧ Bitmap.test b i = false ∧
          (∀ e, endv = some e → i < e) ∧
          (∀ j, offset ≤ j → j < i → Bitmap.test b j = true)) ∧
    (∀ (b : Bitmap) (offset : Nat) (endv : Option Nat),
        offset ≤ 64 * b.words.length →
        (∀ w ∈ b.words, w < 2 ^ 64) →
        Bitmap.findNextZero b offset endv = none →
        ∀ j, offset ≤ j → j < 64 * b.words.length →
          (∀ e, endv = some e → j < e) → Bitmap.test b j = true) ∧
    Bitmap.findNextZero ⟨List.replicate 511 Bitmap.u64MAX ++ [Bitmap.u64MAX - 1]⟩ 0 none
      = some 32767 ∧
    Bitmap.findNextZero ⟨List.replicate 512 Bitmap.u64MAX⟩ 0 none = none := by
  refine ⟨?_, ?_, ?_, ?_⟩
  · exact fun b offset endv i h1 h2 h3 =>
      Bitmap.findNextZero_some_spec b offset endv i h1 h2 h3
  · exact fun b offset endv h1 h2 h3 =>
      Bitmap.findNextZero_none_spec b offset endv h1 h2 h3
  · set_option maxRecDepth 8000 in decide
  · set_option maxRecDepth 8000 in decide

/-- C6 witness: the characterization applied to the one-word bitmap whose
only clear bit is index 62, searching from offset 5. -/
theorem C6_find_next_zero_characterization_witness :
    (5 : Nat) ≤ 62 ∧
    62 < 64 * (Bitmap.mk [Bitmap.u64MAX - 2]).words.length ∧
    Bitmap.test ⟨[Bitmap.u64MAX - 2]⟩ 62 = false ∧
    (∀ e, (none : Option Nat) = some e → 62 < e) ∧
    (∀ j, 5 ≤ j → j < 62 → Bitmap.test ⟨[Bitmap.u64MAX - 2]⟩ j = true) :=
  C6_find_next_zero_characterization.1 ⟨[Bitmap.u64MAX - 2]⟩ 5 none 62
    (by decide) (by decide) (by decide)

/-! ## Signal actions and delivery (src/src/proc/signal.rs, process.rs) -/

def SIG_HANDLER_DFL : Nat := 0
def SIG_HANDLER_IGN : Nat := 1

/-- SigAction { handler, flags, mask }; the handler is the transmuted usize
(None models the unset Option<SigHandler>, read back as SIG_HANDLER_DFL). -/
structure SigAction where
  handler : Option Nat
  flags : Nat
  mask : Nat
  deriving DecidableEq, Repr

/-- SigAction::default. -/
def defaultSigAction : SigAction := ⟨none, 0, 0⟩

/-- SigAction::handler: `self.handler.unwrap_or(SIG_HANDLER_DFL)`. -/
def SigAction.handlerVal (sa : SigAction) : Nat := sa.handler.getD SIG_HANDLER_DFL

/-- SigHandler::is_ignored. -/
def sigHandlerIsIgnored (h sig : Nat) : Bool :=
  h == SIG_HANDLER_IGN || (h == SIG_HANDLER_DFL && Signo.kernelIgnore sig)

/-- SigHandler::is_default. -/
def sigHandlerIsDefault (h : Nat) : Bool := h == SIG_HANDLER_DFL

namespace Signo

def MASK_SIG_SYNCHRONOUS : Nat :=
  SignalSet.union (SignalSet.sigmask SIGSEGV)
    (SignalSet.union (SignalSet.sigmask SIGBUS)
      (SignalSet.union (SignalSet.sigmask SIGILL)
        (SignalSet.union (SignalSet.sigmask SIGTRAP)
          (SignalSet.union (SignalSet.sigmask SIGFPE) (SignalSet.sigmask SIGSYS)))))

end Signo

/-- u64::leading_zeros (used by SignalSet::min_sig): the number of zero bits
above the highest set bit. -/
def leadingZeros64 (v : Nat) : Nat :=
  (((List.range 64).find? (fun k => v.testBit (63 - k))).getD 64)

/-- SignalSet::min_sig: `Signo::from_primitive(leading_zeros + 1)`
(from_primitive yields None outside 1..=64). -/
def SignalSet.minSig (s : Nat) : Option Nat :=
  let x := leadingZeros64 s + 1
  if x ≤ 64 then some x else none

/-- process::Signal: the per-process signal state (actions slot i holds the
action of signal i+1; UNKILLABLE is the only SignalFlags bit). -/
structure ProcSignal where
  actions : List SigAction
  shared_pending : Pending
  blocked : Nat
  real_blocked : Nat
  unkillable : Bool
  deriving DecidableEq, Repr

namespace ProcSignal

/-- process::Signal::new: 64 default actions, empty shared pending, empty
masks. -/
def new : ProcSignal :=
  ⟨List.replicate 64 defaultSigAction, Pending.new, 0, 0, false⟩

/-- process::Signal::action: `actions[sig - 1]`. -/
def action (ps : ProcSignal) (sig : Nat) : SigAction :=
  ps.actions.getD (sig - 1) defaultSigAction

/-- process::Signal::replace_action.  NOTE: unlike action/action_mut, the
source indexes `actions[sig.to_primitive()]` here, with no `- 1`; for
SIGRTMAX (64) this get_unchecked is out of bounds (modelled totally by
getD/set, which read the default and change nothing there). -/
def replaceAction (ps : ProcSignal) (sig : Nat) (sa : SigAction) :
    SigAction × ProcSignal :=
  (ps.actions.getD sig defaultSigAction, { ps with actions := ps.actions.set sig sa })

end ProcSignal

/-- sig_ignored. -/
def sigIgnored (sig : Nat) (ps : ProcSignal) (isInit : Bool) : Bool :=
  if SignalSet.contains ps.blocked sig || SignalSet.contains ps.real_blocked sig then
    false
  else
    let handler := (ps.action sig).handlerVal
    if isInit && Signo.kernelOnly sig then true
    else if ps.unkillable && sigHandlerIsDefault handler && !Signo.kernelOnly sig then
      true
    else sigHandlerIsIgnored handler sig

/-- Flush a mask from the shared pending set and from every thread's
pending set. -/
def flushAll (ps : ProcSignal) (threads : List (Nat × Pending)) (mask : Nat) :
    ProcSignal × List (Nat × Pending) :=
  ({ ps with shared_pending := ps.shared_pending.flushByMask mask },
    threads.map (fun t => (t.1, t.2.flushByMask mask)))

/-- Signal::prepare_signal: stop signals flush queued SIGCONT, SIGCONT
flushes queued stop signals (the waker/flag wakeups touch only scheduler
state and are not modelled); then the signal is dropped when sig_ignored. -/
def prepareSignal (sig : Nat) (ps : ProcSignal) (threads : List (Nat × Pending))
    (isInit : Bool) : Bool × ProcSignal × List (Nat × Pending) :=
  let r :=
    if Signo.kernelStop sig then flushAll ps threads (SignalSet.sigmask Signo.SIGCONT)
    else if sig == Signo.SIGCONT then flushAll ps threads Signo.MASK_SIG_KERNEL_STOP
    else (ps, threads)
  (!(sigIgnored sig r.1 isInit), r.1, r.2)

/-- Signal::send_signal for SendTo::ProcGroup: prepare, legacy-merge
against the shared pending set, then push (signal_wakeup only touches
scheduler state and is omitted). -/
def sendSignalGroup (ps : ProcSignal) (threads : List (Nat × Pending))
    (sig : Nat) (info : Info) (isInit : Bool) :
    Except Info (ProcSignal × List (Nat × Pending)) :=
  let pr := prepareSignal sig ps threads isInit
  if !pr.1 then Except.ok (pr.2.1, pr.2.2)
  else if Signo.legacy sig && pr.2.1.shared_pending.containsSig sig then
    Except.ok (pr.2.1, pr.2.2)
  else
    match pr.2.1.shared_pending.push info with
    | Except.error i => Except.error i
    | Except.ok pend => Except.ok ({ pr.2.1 with shared_pending := pend }, pr.2.2)

/-- do_sigaction: reject kernel-only signals, strip SIGKILL/SIGSTOP from
the new mask, replace the action slot (with the source's off-by-one index),
and flush all pending instances when the new handler ignores the signal. -/
def doSigaction (threads : List (Nat × Pending)) (ps : ProcSignal)
    (sig : Nat) (act : SigAction) :
    Except Unit (SigAction × ProcSignal × List (Nat × Pending)) :=
  if Signo.kernelOnly sig then Except.error ()
  else
    let act2 := { act with
      mask := SignalSet.difference act.mask
        (SignalSet.union (SignalSet.sigmask Signo.SIGKILL)
          (SignalSet.sigmask Signo.SIGSTOP)) }
    let ign := sigHandlerIsIgnored act2.handlerVal sig
    let rp := ps.replaceAction sig act2
    if ign then
      let f := flushAll rp.2 threads (SignalSet.sigmask sig)
      Except.ok (rp.1, f.1, f.2)
    else Except.ok (rp.1, rp.2, threads)

/-- The queue scan of dequeue_signal: walk the queue tracking the first
kernel-sent (code > SI_USER) and first user-sent matching entries; a second
kernel match clears only_one and breaks, a second user match clears
only_one and continues. -/
def dequeueScanGo (tsig : Nat) : List Info → Nat → Option Nat → Option Nat → Bool →
    Option Nat × Option Nat × Bool
  | [], _, k, u, oo => (k, u, oo)
  | info :: rest, i, k, u, oo =>
    if info.sig == tsig then
      if SI_USER < info.code then
        match k with
        | none => dequeueScanGo tsig rest (i + 1) (some i) u oo
        | some _ => (k, u, false)
      else
        match u with
        | none => dequeueScanGo tsig rest (i + 1) k (some i) oo
        | some _ => dequeueScanGo tsig rest (i + 1) k u false
    else dequeueScanGo tsig rest (i + 1) k u oo

/-- The removal step of dequeue_signal: when only one target remains the
bitmask bit of the target's signal is cleared, then the target is removed;
the returned Info is the removed entry's successor (cursor.current() after
remove_current), as in the source. -/
def dequeueFinish (p : Pending) (t : Nat) (oo : Bool) : (Option Info × Bool) × Pending :=
  let sig := (p.queue.getD t ⟨0, 0⟩).sig
  let signal2 := if oo then SignalSet.delset p.signal sig else p.signal
  let q2 := p.queue.eraseIdx t
  ((q2.get? t, oo), { signal := signal2, queue := q2 })

/-- dequeue_signal: pick the target signal from the bitmask (synchronous
signals first, then min_sig), scan the queue, remove the chosen entry.
The None arm for min_sig mirrors the source's unreachable unwrap. -/
def dequeueSignal (p : Pending) (mask : Nat) : (Option Info × Bool) × Pending :=
  let s0 := SignalSet.difference p.signal mask
  if !(SignalSet.isEmptry s0) then
    let sync := SignalSet.intersection s0 Signo.MASK_SIG_SYNCHRONOUS
    let s := if !(SignalSet.isEmptry sync) then sync else s0
    match SignalSet.minSig s with
    | none => ((none, false), p)
    | some tsig =>
      match dequeueScanGo tsig p.queue 0 none none true with
      | (some tk, some _, _) => dequeueFinish p tk false
      | (none, some tu, oo) => dequeueFinish p tu oo
      | (some tk, none, oo) => dequeueFinish p tk oo
      | (none, none, _) => ((none, false), p)
  else ((none, false), p)

/-- The ignore action installed by sigaction(sig, SIG_IGN). -/
def ignAct : SigAction := ⟨some SIG_HANDLER_IGN, 0, 0⟩

/-- A process with one thread (tid 1) and fresh signal state. -/
def threads0 : List (Nat × Pending) := [(1, Pending.new)]

/-- C7: queue SIGUSR1 to the process group, then sigaction(SIGUSR1, SIG_IGN).
The claim requires: the SIGUSR1 action slot is replaced and every pending
SIGUSR1 removed, after which no queue holds the signal.  In the code:
(1) Pending::push never set the summary bit, so flush_by_mask in
do_sigaction returns early and the shared queue still holds the SIGUSR1
entry; (2) replace_action indexes actions[sig] instead of actions[sig-1],
so the SIGUSR1 slot (index 9) keeps its default action and the ignore
action lands in the slot of signal 11; get_signal still delivers nothing
because dequeue_signal trusts the (empty) bitmask.  SIGKILL/SIGSTOP are
rejected as the claim states. -/
theorem C7_do_sigaction_code_bug :
    ∃ ps1,
      sendSignalGroup ProcSignal.new threads0 Signo.SIGUSR1 usr1Info false =
        Except.ok (ps1, threads0) ∧
      ps1.shared_pending = { signal := 0, queue := [usr1Info] } ∧
      ∃ old ps2 threads2,
        doSigaction threads0 ps1 Signo.SIGUSR1 ignAct =
          Except.ok (old, ps2, threads2) ∧
        ps2.shared_pending.queue = [usr1Info] ∧
        ps2.action Signo.SIGUSR1 = defaultSigAction ∧
        ps2.actions.getD Signo.SIGUSR1 defaultSigAction = ignAct ∧
        (dequeueSignal ps2.shared_pending ps2.blocked).1 = (none, false) ∧
        doSigaction threads0 ps1 Signo.SIGKILL ignAct = Except.error () ∧
        doSigaction threads0 ps1 Signo.SIGSTOP ignAct = Except.error () := by
  refine ⟨{ ProcSignal.new with shared_pending := { signal := 0, queue := [usr1Info] } },
    ?_, rfl,
    defaultSigAction,
    { ProcSignal.new with
        shared_pending := { signal := 0, queue := [usr1Info] }
        actions := (List.replicate 64 defaultSigAction).set Signo.SIGUSR1 ignAct },
    threads0, ?_, rfl, by decide, by decide, rfl, rfl, rfl⟩
  · rfl
  · rfl

/-! ## naive_fs inode/block id Allocator (src/crates/naive_fs/src/allocator.rs) -/

/-- Allocator { bitmap, next_id, free, capacity }; the u16 counters are
modelled as Nat. -/
structure Allocator where
  bitmap : Bitmap
  next_id : Nat
  free : Nat
  capacity : Nat
  deriving DecidableEq, Repr

namespace Allocator

/-- Allocator::alloc: pick a candidate from next_id (wrapping to 0 past
capacity), set its bit; if it was already set, search for the next zero from
the candidate (wrapping once to 0), set that bit instead; finally bump
next_id, decrement free and return the 1-based id. -/
def alloc (a : Allocator) : Option (Nat × Allocator) :=
  if a.free = 0 then none
  else
    let id0 := if a.next_id ≥ a.capacity then 0 else a.next_id
    let ts := Bitmap.testAndSet a.bitmap id0 true
    if ts.1 then
      match (match Bitmap.findNextZero ts.2 id0 none with
             | some newid => some newid
             | none => Bitmap.findNextZero ts.2 0 none) with
      | none => none
      | some newid =>
        let ts2 := Bitmap.testAndSet ts.2 newid true
        some (newid + 1,
          { a with bitmap := ts2.2, next_id := newid + 1, free := a.free - 1 })
    else
      some (id0 + 1,
        { a with bitmap := ts.2, next_id := id0 + 1, free := a.free - 1 })

/-- Allocator::dealloc: clear bit id-1 (id 0 is reserved); on an actual
clear increment free and pull next_id back when it pointed past this id. -/
def dealloc (a : Allocator) (id : Nat) : Bool × Allocator :=
  if id = 0 then (false, a)
  else
    let idm := id - 1
    let ts := Bitmap.testAndSet a.bitmap idm false
    if ts.1 then
      (true,
        { a with
            bitmap := ts.2
            free := a.free + 1
            next_id := (if a.next_id = idm + 1 then a.next_id - 1 else a.next_id) })
    else
      (false, { a with bitmap := ts.2 })

/-- Consistency of an allocator state: nonempty word storage covering the
capacity, with every stored word a u64 value. -/
def WF (a : Allocator) : Prop :=
  0 < a.bitmap.words.length ∧ a.capacity ≤ 64 * a.bitmap.words.length ∧
    ∀ w ∈ a.bitmap.words, w < 2 ^ 64

/-- Step specification of alloc: a successful alloc returns a 1-based id
whose bit was clear, sets exactly that bit, and preserves consistency. -/
theorem alloc_spec (a : Allocator) (hwf : a.WF) :
    match alloc a with
    | none => True
    | some (id, a') =>
        1 ≤ id ∧ Bitmap.test a.bitmap (id - 1) = false ∧
        (∀ j, Bitmap.test a'.bitmap j =
          if j = id - 1 then true else Bitmap.test a.bitmap j) ∧
        a'.WF := by
  obtain ⟨hlen, hcap, hbnd⟩ := hwf
  unfold alloc
  by_cases hfree : a.free = 0
  · simp [hfree]
  · rw [if_neg hfree]
    have hid0 : (if a.next_id ≥ a.capacity then 0 else a.next_id) <
        64 * a.bitmap.words.length := by
      by_cases hge : a.next_id ≥ a.capacity
      · rw [if_pos hge]; omega
      · rw [if_neg hge]; omega
    set id0 := if a.next_id ≥ a.capacity then 0 else a.next_id with hid0def
    set ts := Bitmap.testAndSet a.bitmap id0 true with htsdef
    have hts1 : ts.1 = Bitmap.test a.bitmap id0 := Bitmap.testAndSet_fst _ _ _
    have htslen : ts.2.words.length = a.bitmap.words.length :=
      Bitmap.length_testAndSet _ _ _
    have htsbnd : ∀ w ∈ ts.2.words, w < 2 ^ 64 :=
      Bitmap.wordsBounded_testAndSet _ _ _ hbnd
    have htsbit : ∀ j, Bitmap.test ts.2 j =
        if j = id0 then true else Bitmap.test a.bitmap j :=
      fun j => Bitmap.test_testAndSet a.bitmap id0 j true hid0
    by_cases hold : ts.1 = true
    · rw [if_pos hold]
      have hfind : ∀ newid,
          (match Bitmap.findNextZero ts.2 id0 none with
           | some v => some v
           | none => Bitmap.findNextZero ts.2 0 none) = some newid →
          Bitmap.test ts.2 newid = false ∧ newid < 64 * a.bitmap.words.length := by
        intro newid hres
        cases h1 : Bitmap.findNextZero ts.2 id0 none with
        | some v =>
          rw [h1] at hres
          simp only [Option.some.injEq] at hres
          have hspec := Bitmap.findNextZero_some_spec ts.2 id0 none v
            (by omega) htsbnd h1
          rw [← hres]
          exact ⟨hspec.2.2.1, by omega⟩
        | none =>
          rw [h1] at hres
          have := Bitmap.findNextZero_some_spec ts.2 0 none newid
            (by omega) htsbnd hres
          exact ⟨this.2.2.1, by omega⟩
      cases hres : (match Bitmap.findNextZero ts.2 id0 none with
                    | some v => some v
                    | none => Bitmap.findNextZero ts.2 0 none) with
      | none => simp [hres]
      | some newid =>
        obtain ⟨hnewbit, hnewlt⟩ := hfind newid hres
        have hne0 : newid ≠ id0 := by
          intro hc
          have hb := htsbit newid
          rw [if_pos hc] at hb
          rw [hb] at hnewbit
          exact absurd hnewbit (by simp)
        have habit : Bitmap.test a.bitmap newid = false := by
          have hb := htsbit newid
          rw [if_neg hne0] at hb
          rw [← hb]
          exact hnewbit
        have hts2bit : ∀ j, Bitmap.test (Bitmap.testAndSet ts.2 newid true).2 j =
            if j = newid then true else Bitmap.test ts.2 j :=
          fun j => Bitmap.test_testAndSet ts.2 newid j true (by omega)
        refine ⟨by omega, by simpa using habit, ?_, ?_, ?_, ?_⟩
        · intro j
          rw [hts2bit j]
          simp only [Nat.add_sub_cancel]
          by_cases hjn : j = newid
          · rw [if_pos hjn, if_pos hjn]
          · rw [if_neg hjn, if_neg hjn, htsbit j]
            by_cases hj0 : j = id0
            · rw [if_pos hj0, hj0]
              rw [hts1] at hold
              exact hold.symm
            · rw [if_neg hj0]
        · simp only [Bitmap.length_testAndSet, htslen]
          exact hlen
        · simp only [Bitmap.length_testAndSet, htslen]
          exact hcap
        · exact Bitmap.wordsBounded_testAndSet _ _ _ htsbnd
    · have hold2 : ts.1 = false := by
        cases h : ts.1
        · rfl
        · exact absurd h hold
      rw [Bool.not_eq_true] at hold
      rw [if_neg (by rw [hold2]; simp)]
      have habit : Bitmap.test a.bitmap id0 = false := by
        rw [← hts1]; exact hold2
      refine ⟨by omega, by simpa using habit, ?_, ?_, ?_, ?_⟩
      · intro j
        simp only [Nat.add_sub_cancel]
        exact htsbit j
      · rw [htslen]; exact hlen
      · rw [htslen]; exact hcap
      · exact htsbnd

/-- Step specification of dealloc: a successful dealloc(id) clears exactly
bit id-1 (which was set); a failed one changes no bit; consistency is
preserved. -/
theorem dealloc_spec (a : Allocator) (id : Nat) (hwf : a.WF) :
    (dealloc a id).2.WF ∧
    ((dealloc a id).1 = true →
      1 ≤ id ∧ Bitmap.test a.bitmap (id - 1) = true ∧
      ∀ j, Bitmap.test (dealloc a id).2.bitmap j =
        if j = id - 1 then false else Bitmap.test a.bitmap j) ∧
    ((dealloc a id).1 = false →
      ∀ j, Bitmap.test (dealloc a id).2.bitmap j = Bitmap.test a.bitmap j) := by
  obtain ⟨hlen, hcap, hbnd⟩ := hwf
  by_cases hid0 : id = 0
  · have hd : dealloc a id = (false, a) := by
      unfold dealloc
      rw [if_pos hid0]
    rw [hd]
    exact ⟨⟨hlen, hcap, hbnd⟩, fun h => absurd h (by simp), fun _ j => rfl⟩
  · have hd : dealloc a id =
        (let ts := Bitmap.testAndSet a.bitmap (id - 1) false
         if ts.1 then
           (true,
             { a with
                 bitmap := ts.2
                 free := a.free + 1
                 next_id := (if a.next_id = id - 1 + 1 then a.next_id - 1 else a.next_id) })
         else (false, { a with bitmap := ts.2 })) := by
      unfold dealloc
      rw [if_neg hid0]
    set ts := Bitmap.testAndSet a.bitmap (id - 1) false with htsdef
    have hts1 : ts.1 = Bitmap.test a.bitmap (id - 1) := Bitmap.testAndSet_fst _ _ _
    have htslen : ts.2.words.length = a.bitmap.words.length :=
      Bitmap.length_testAndSet _ _ _
    have htsbnd : ∀ w ∈ ts.2.words, w < 2 ^ 64 :=
      Bitmap.wordsBounded_testAndSet _ _ _ hbnd
    have hwf2 : ∀ (x : Allocator), x.bitmap = ts.2 → x.capacity = a.capacity → x.WF := by
      intro x hx hcapx
      refine ⟨?_, ?_, ?_⟩
      · rw [hx, htslen]; exact hlen
      · rw [hx, htslen, hcapx]; exact hcap
      · rw [hx]; exact htsbnd
    by_cases hin : id - 1 < 64 * a.bitmap.words.length
    · have htsbit : ∀ j, Bitmap.test ts.2 j =
          if j = id - 1 then false else Bitmap.test a.bitmap j :=
        fun j => Bitmap.test_testAndSet a.bitmap (id - 1) j false hin
      by_cases hold : ts.1 = true
      · have hd2 : dealloc a id =
            (true,
              { a with
                  bitmap := ts.2
                  free := a.free + 1
                  next_id := (if a.next_id = id - 1 + 1 then a.next_id - 1 else a.next_id) }) := by
          rw [hd]
          simp only [← htsdef, hold, if_true]
        rw [hd2]
        refine ⟨hwf2 _ rfl rfl, ?_, ?_⟩
        · intro _
          exact ⟨by omega, by rw [← hts1]; exact hold, htsbit⟩
        · intro h
          exact absurd h (by simp)
      · have hold2 : ts.1 = false := by
          cases h : ts.1
          · rfl
          · exact absurd h hold
        have hd2 : dealloc a id = (false, { a with bitmap := ts.2 }) := by
          rw [hd]
          simp only [← htsdef, hold2]
          simp
        rw [hd2]
        refine ⟨hwf2 _ rfl rfl, fun h => absurd h (by simp), ?_⟩
        intro _ j
        rw [htsbit j]
        by_cases hj : j = id - 1
        · rw [if_pos hj, hj]
          rw [← hts1]
          exact hold2.symm
        · rw [if_neg hj]
    · have hoor : ¬ (id - 1) / 64 < a.bitmap.words.length := by omega
      have hold2 : ts.1 = false := by
        rw [hts1]
        exact Bitmap.test_out_of_range a.bitmap (id - 1) hoor
      have hd2 : dealloc a id = (false, { a with bitmap := ts.2 }) := by
        rw [hd]
        simp only [← htsdef, hold2]
        simp
      rw [hd2]
      refine ⟨hwf2 _ rfl rfl, fun h => absurd h (by simp), ?_⟩
      intro _ j
      exact Bitmap.test_testAndSet_oor a.bitmap (id - 1) j false hoor

end Allocator

/-- Operations driving the allocator in a trace. -/
inductive AllocOp where
  | alloc
  | dealloc (id : Nat)
  deriving DecidableEq, Repr

/-- Observable events of an allocator trace. -/
inductive AllocEvent where
  | allocOk (id : Nat)
  | allocFail
  | deallocOk (id : Nat)
  | deallocFail (id : Nat)
  deriving DecidableEq, Repr

namespace Allocator

/-- One operation against the allocator, yielding its event. -/
def stepOp (a : Allocator) : AllocOp → AllocEvent × Allocator
  | AllocOp.alloc =>
    match alloc a with
    | none => (AllocEvent.allocFail, a)
    | some (id, a2) => (AllocEvent.allocOk id, a2)
  | AllocOp.dealloc id =>
    let r := dealloc a id
    (if r.1 then AllocEvent.deallocOk id else AllocEvent.deallocFail id, r.2)

/-- Run a list of operations, collecting the event trace. -/
def exec (a : Allocator) : List AllocOp → Allocator × List AllocEvent
  | [] => (a, [])
  | op :: rest =>
    let r := stepOp a op
    let r2 := exec r.2 rest
    (r2.1, r.1 :: r2.2)

/-- Ghost live-set update induced by one event. -/
def updateLive (live : Nat → Bool) : AllocEvent → Nat → Bool
  | AllocEvent.allocOk id => fun j => if j = id then true else live j
  | AllocEvent.deallocOk id => fun j => if j = id then false else live j
  | _ => live

/-- A trace is good from a live set when every successful alloc returns an
id that is not live at that point. -/
def GoodFrom (live : Nat → Bool) : List AllocEvent → Prop
  | [] => True
  | e :: rest =>
      (∀ id, e = AllocEvent.allocOk id → live id = false) ∧
      GoodFrom (updateLive live e) rest

/-- The executed trace from a consistent state is good for the live set
read off the bitmap (live id = bit id-1). -/
theorem exec_good (ops : List AllocOp) :
    ∀ (a : Allocator) (live : Nat → Bool), a.WF →
    (∀ id, 1 ≤ id → live id = Bitmap.test a.bitmap (id - 1)) →
    GoodFrom live (exec a ops).2 := by
  induction ops with
  | nil => intro a live _ _; trivial
  | cons op rest ih =>
    intro a live hwf hlive
    match op with
    | AllocOp.alloc =>
      have hstep := alloc_spec a hwf
      cases halloc : alloc a with
      | none =>
        have hexec : exec a (AllocOp.alloc :: rest) =
            ((exec a rest).1, AllocEvent.allocFail :: (exec a rest).2) := by
          simp [exec, stepOp, halloc]
        rw [hexec]
        exact ⟨fun id h => AllocEvent.noConfusion h, ih a live hwf hlive⟩
      | some pr =>
        obtain ⟨id, a2⟩ := pr
        rw [halloc] at hstep
        obtain ⟨hid1, hbefore, hafter, hwf2⟩ := hstep
        have hexec : exec a (AllocOp.alloc :: rest) =
            ((exec a2 rest).1, AllocEvent.allocOk id :: (exec a2 rest).2) := by
          simp [exec, stepOp, halloc]
        rw [hexec]
        refine ⟨?_, ?_⟩
        · intro id2 h
          injection h with h
          subst h
          rw [hlive id hid1]
          exact hbefore
        · apply ih a2 _ hwf2
          intro id2 hid2
          simp only [updateLive]
          rw [hafter (id2 - 1)]
          by_cases he : id2 = id
          · rw [if_pos he, if_pos (by omega)]
          · rw [if_neg he, if_neg (by omega), hlive id2 hid2]
    | AllocOp.dealloc id =>
      have hstep := dealloc_spec a id hwf
      obtain ⟨hwf2, hok, hfail⟩ := hstep
      cases hdeal : (dealloc a id).1 with
      | true =>
        obtain ⟨hid1, hbefore, hafter⟩ := hok hdeal
        have hexec : exec a (AllocOp.dealloc id :: rest) =
            ((exec (dealloc a id).2 rest).1,
              AllocEvent.deallocOk id :: (exec (dealloc a id).2 rest).2) := by
          simp [exec, stepOp, hdeal]
        rw [hexec]
        refine ⟨fun id2 h => AllocEvent.noConfusion h, ?_⟩
        apply ih _ _ hwf2
        intro id2 hid2
        simp only [updateLive]
        rw [hafter (id2 - 1)]
        by_cases he : id2 = id
        · rw [if_pos he, if_pos (by omega)]
        · rw [if_neg he, if_neg (by omega), hlive id2 hid2]
      | false =>
        have hunch := hfail hdeal
        have hexec : exec a (AllocOp.dealloc id :: rest) =
            ((exec (dealloc a id).2 rest).1,
              AllocEvent.deallocFail id :: (exec (dealloc a id).2 rest).2) := by
          simp [exec, stepOp, hdeal]
        rw [hexec]
        refine ⟨fun id2 h => AllocEvent.noConfusion h, ?_⟩
        apply ih _ _ hwf2
        intro id2 hid2
        simp only [updateLive]
        rw [hunch (id2 - 1), hlive id2 hid2]

/-- In a good trace, an alloc of a live id can only occur after that id was
deallocated. -/
theorem goodFrom_no_realloc (evs : List AllocEvent) :
    ∀ (live : Nat → Bool) (j id : Nat), GoodFrom live evs →
    live id = true → evs.get? j = some (AllocEvent.allocOk id) →
    ∃ k, k < j ∧ evs.get? k = some (AllocEvent.deallocOk id) := by
  induction evs with
  | nil =>
    intro live j id _ _ hj
    simp at hj
  | cons e rest ih =>
    intro live j id hgood hlive hj
    obtain ⟨hhead, htail⟩ := hgood
    match j with
    | 0 =>
      simp only [List.get?] at hj
      injection hj with hj
      have := hhead id hj
      rw [hlive] at this
      exact absurd this (by simp)
    | j2 + 1 =>
      simp only [List.get?] at hj
      by_cases hdeal : e = AllocEvent.deallocOk id
      · exact ⟨0, by omega, by simp [hdeal]⟩
      · have hlive2 : updateLive live e id = true := by
          match e with
          | AllocEvent.allocOk id2 =>
            simp only [updateLive]
            by_cases he : id = id2
            · rw [if_pos he]
            · rw [if_neg he]; exact hlive
          | AllocEvent.deallocOk id2 =>
            simp only [updateLive]
            have : id ≠ id2 := fun hc => hdeal (by rw [hc])
            rw [if_neg this]
            exact hlive
          | AllocEvent.allocFail => exact hlive
          | AllocEvent.deallocFail id2 => exact hlive
        obtain ⟨k, hk1, hk2⟩ := ih (updateLive live e) j2 id htail hlive2 hj
        exact ⟨k + 1, by omega, by simpa using hk2⟩

/-- In a good trace, two successful allocs of the same id must be separated
by a successful dealloc of that id. -/
theorem goodFrom_unique (evs : List AllocEvent) :
    ∀ (live : Nat → Bool) (i j id : Nat), GoodFrom live evs →
    i < j → evs.get? i = some (AllocEvent.allocOk id) →
    evs.get? j = some (AllocEvent.allocOk id) →
    ∃ k, i < k ∧ k < j ∧ evs.get? k = some (AllocEvent.deallocOk id) := by
  induction evs with
  | nil =>
    intro live i j id _ _ hi _
    simp at hi
  | cons e rest ih =>
    intro live i j id hgood hij hi hj
    obtain ⟨hhead, htail⟩ := hgood
    match i, j with
    | 0, j2 + 1 =>
      simp only [List.get?] at hi hj
      injection hi with hi
      subst hi
      have hlive2 : updateLive live (AllocEvent.allocOk id) id = true := by
        simp [updateLive]
      obtain ⟨k, hk1, hk2⟩ := goodFrom_no_realloc rest _ j2 id htail hlive2 hj
      exact ⟨k + 1, by omega, by omega, by simpa using hk2⟩
    | i2 + 1, j2 + 1 =>
      simp only [List.get?] at hi hj
      obtain ⟨k, hk1, hk2, hk3⟩ := ih (updateLive live e) i2 j2 id htail
        (by omega) hi hj
      exact ⟨k + 1, by omega, by omega, by simpa using hk3⟩

end Allocator

/-- C5: over any sequence of alloc/dealloc operations from a consistent
initial state, alloc never returns an id that was previously returned and
has not since been deallocated (any two successful allocs of the same id
are separated by a successful dealloc of it); and after dealloc(id) a later
alloc may return id again (as the concrete trace alloc; dealloc 1; alloc on
a one-word allocator shows, yielding id 1 twice). -/
theorem C5_allocator_single_use :
    (∀ (a0 : Allocator) (ops : List AllocOp), a0.WF →
      ∀ i j id, i < j →
        (Allocator.exec a0 ops).2.get? i = some (AllocEvent.allocOk id) →
        (Allocator.exec a0 ops).2.get? j = some (AllocEvent.allocOk id) →
        ∃ k, i < k ∧ k < j ∧
          (Allocator.exec a0 ops).2.get? k = some (AllocEvent.deallocOk id)) ∧
    (Allocator.exec ⟨⟨[0]⟩, 0, 2, 1⟩
        [AllocOp.alloc, AllocOp.dealloc 1, AllocOp.alloc]).2 =
      [AllocEvent.allocOk 1, AllocEvent.deallocOk 1, AllocEvent.allocOk 1] := by
  constructor
  · intro a0 ops hwf i j id hij h1 h2
    exact Allocator.goodFrom_unique (Allocator.exec a0 ops).2
      (fun id2 => Bitmap.test a0.bitmap (id2 - 1)) i j id
      (Allocator.exec_good ops a0 _ hwf (fun _ _ => rfl)) hij h1 h2
  · decide

/-- C5 witness: the single-use property applied to the concrete trace
alloc; dealloc 1; alloc, locating the dealloc between the two allocs of
id 1. -/
theorem C5_allocator_single_use_witness :
    ∃ k, 0 < k ∧ k < 2 ∧
      (Allocator.exec ⟨⟨[0]⟩, 0, 2, 1⟩
          [AllocOp.alloc, AllocOp.dealloc 1, AllocOp.alloc]).2.get? k =
        some (AllocEvent.deallocOk 1) :=
  C5_allocator_single_use.1 ⟨⟨[0]⟩, 0, 2, 1⟩
    [AllocOp.alloc, AllocOp.dealloc 1, AllocOp.alloc]
    ⟨by decide, by decide, by decide⟩ 0 2 1 (by decide) (by decide) (by decide)

/-! ## naive_fs inode I/O (src/crates/naive_fs/src/inode.rs, lib.rs) -/

namespace NaiveFs

/-- BlkSize::size: `1 << blk_size_log2`. -/
def blkSize (log2 : Nat) : Nat := 1 <<< log2

/-- BlkSize::div_by. -/
def divBy (log2 x : Nat) : Nat := x >>> log2

/-- BlkSize::mod_by: `x & (size - 1)`. -/
def modBy (log2 x : Nat) : Nat := x &&& (blkSize log2 - 1)

/-- BlkSize::div_round_up_by. -/
def divRoundUpBy (log2 x : Nat) : Nat := (x + (blkSize log2 - 1)) >>> log2

/-- BlkSize::mul. -/
def blkMul (log2 m : Nat) : Nat := m <<< log2

/-- Addr { blk_id, offset_of_blk }. -/
structure Addr where
  blk_id : Nat
  offset_of_blk : Nat
  deriving DecidableEq, Repr

/-- Addr::abs_offset. -/
def Addr.absOffset (log2 : Nat) (a : Addr) : Nat :=
  blkMul log2 a.blk_id + a.offset_of_blk

/-- LenOfBlk: End runs to the end of the block; Len is an explicit count. -/
inductive LenOfBlk where
  | toEnd
  | len (n : Nat)
  deriving DecidableEq, Repr

/-- Blk { addr, len }. -/
structure Blk where
  addr : Addr
  lenOf : LenOfBlk
  deriving DecidableEq, Repr

/-- Blk::len. -/
def Blk.len (log2 : Nat) (b : Blk) : Nat :=
  match b.lenOf with
  | LenOfBlk.toEnd => blkSize log2 - b.addr.offset_of_blk
  | LenOfBlk.len n => n

/-- The BlksRange iterator, materialized as the list of yielded extents.
Iteration stops at the first zero block id (`if blk_id == 0 return None`). -/
def blksRangeGo (totalLen firstOff : Nat) (lastLen : LenOfBlk) :
    List Nat → Nat → List Blk
  | [], _ => []
  | bid :: rest, idx =>
    if bid == 0 then []
    else
      (if idx == 0 then
        { addr := ⟨bid, firstOff⟩,
          lenOf := if totalLen == 1 then lastLen else LenOfBlk.toEnd }
      else if idx == totalLen - 1 then { addr := ⟨bid, 0⟩, lenOf := lastLen }
      else { addr := ⟨bid, 0⟩, lenOf := LenOfBlk.toEnd }) ::
        blksRangeGo totalLen firstOff lastLen rest (idx + 1)

def blksRangeList (blks : List Nat) (firstOff : Nat) (lastLen : LenOfBlk) :
    List Blk :=
  if blks.isEmpty then [] else blksRangeGo blks.length firstOff lastLen blks 0

/-- DirectBlks { blks, blks_slice_range, first_blk_offset, last_blk_len }. -/
structure DirectBlks where
  blks : List Nat
  range_start : Nat
  range_stop : Nat
  first_blk_offset : Nat
  last_blk_len : LenOfBlk
  deriving DecidableEq, Repr

def DirectBlks.iter (d : DirectBlks) : List Blk :=
  blksRangeList ((d.blks.drop d.range_start).take (d.range_stop - d.range_start))
    d.first_blk_offset d.last_blk_len

/-- IndirectBlks { blks, first_blk_offset, last_blk_len }. -/
structure IndirectBlks where
  blks : List Nat
  first_blk_offset : Nat
  last_blk_len : LenOfBlk
  deriving DecidableEq, Repr

def IndirectBlks.empty : IndirectBlks := ⟨[], 0, LenOfBlk.toEnd⟩

def IndirectBlks.iter (i : IndirectBlks) : List Blk :=
  blksRangeList i.blks i.first_blk_offset i.last_blk_len

/-- IoBlks { direct_blks, indirect_blks }. -/
structure IoBlks where
  direct_blks : Option DirectBlks
  indirect_blks : Option IndirectBlks

/-- IoBlksIter: direct extents then indirect extents. -/
def IoBlks.iter (io : IoBlks) : List Blk :=
  (match io.direct_blks with
   | some d => d.iter
   | none => []) ++
  (match io.indirect_blks with
   | some i => i.iter
   | none => [])

/-- The RawInode fields the I/O paths use. -/
structure RawInode where
  size : Nat
  direct_blks : List Nat
  indirect_blk : Nat
  deriving DecidableEq, Repr

/-- Filesystem state: block size, ids per indirect block
(blk_size / BlkId::BYTES_LEN), the block id allocator of the superblock,
and the disk as a byte store (absolute offset to byte).  The disk is
unbounded, so block-device reads and writes always transfer the requested
length. -/
structure FsState where
  blkSizeLog2 : Nat
  blkIdsCountPreBlk : Nat
  blkAllocator : Allocator
  disk : Nat → Nat

inductive FsError where
  | noSpace
  deriving DecidableEq, Repr

/-- Inode::direct_blk_len: `blk_size.mul(INODE_DIRECT_BLK_COUNT)`. -/
def directBlkLen (log2 : Nat) : Nat := blkMul log2 12

def diskWrite (d : Nat → Nat) (off : Nat) (bytes : List Nat) : Nat → Nat :=
  fun i => if off ≤ i ∧ i < off + bytes.length then bytes.getD (i - off) 0 else d i

def diskReadRange (d : Nat → Nat) (off lenv : Nat) : List Nat :=
  (List.range lenv).map (fun i => d (off + i))

/-- Write bytes into a buffer at a given start position. -/
def bufWriteRange (buf : List Nat) (start : Nat) (bytes : List Nat) : List Nat :=
  buf.take start ++ bytes ++ buf.drop (start + bytes.length)

/-- u16::from_be_bytes over chunks of 2 (read_vec of BlkId); a trailing odd
byte stops the decoding, as from_bytes fails there. -/
def bytesToIdsBE : List Nat → List Nat
  | b0 :: b1 :: rest => (b0 * 256 + b1) :: bytesToIdsBE rest
  | _ => []

/-- u16::to_be_bytes of each id (write_slice of BlkId); ids are u16. -/
def idsToBytesBE (ids : List Nat) : List Nat :=
  (ids.map (fun id => [id >>> 8, id % 256])).flatten

/-- The OR_ALLOC loop: replace every zero id by a fresh allocation
(Error::NoSpace when the allocator is exhausted); reports whether any
allocation happened. -/
def allocZeroIds (alloc : Allocator) :
    List Nat → Except FsError (List Nat × Allocator × Bool)
  | [] => Except.ok ([], alloc, false)
  | bid :: rest =>
    if bid == 0 then
      match Allocator.alloc alloc with
      | none => Except.error FsError.noSpace
      | some pr =>
        match allocZeroIds pr.2 rest with
        | Except.error e => Except.error e
        | Except.ok r => Except.ok (pr.1 :: r.1, r.2.1, true)
    else
      match allocZeroIds alloc rest with
      | Except.error e => Except.error e
      | Except.ok r => Except.ok (bid :: r.1, r.2.1, r.2.2)

/-- Inode::find_in_direct_blks. -/
def findInDirectBlks (st : FsState) (raw : RawInode) (orAlloc : Bool)
    (offset lenv : Nat) : Except FsError (DirectBlks × RawInode × FsState) :=
  let log2 := st.blkSizeLog2
  let nth_blk := divBy log2 offset
  let first_blk_offset := modBy log2 offset
  let n_blks := divRoundUpBy log2 (first_blk_offset + lenv)
  let direct_blks := raw.direct_blks
  let d : DirectBlks :=
    if direct_blks.length ≤ nth_blk + n_blks then
      ⟨direct_blks, nth_blk, direct_blks.length, first_blk_offset, LenOfBlk.toEnd⟩
    else
      ⟨direct_blks, nth_blk, nth_blk + n_blks, first_blk_offset,
        if n_blks == 1 then LenOfBlk.len lenv
        else LenOfBlk.len (modBy log2 (offset + lenv))⟩
  if orAlloc then
    match allocZeroIds st.blkAllocator
        ((d.blks.drop d.range_start).take (d.range_stop - d.range_start)) with
    | Except.error e => Except.error e
    | Except.ok r =>
      let blks2 := d.blks.take d.range_start ++ r.1 ++ d.blks.drop d.range_stop
      let d2 := { d with blks := blks2 }
      let raw2 := if r.2.2 then { raw with direct_blks := blks2 } else raw
      Except.ok (d2, raw2, { st with blkAllocator := r.2.1 })
  else
    Except.ok (d, raw, st)

/-- Inode::find_in_indirect_blks.  The block ids are stored big-endian in
the indirect block; the search offset is used as given by the caller (the
source passes the raw file offset in the indirect-only branch of io_blks
and a rebased offset in the split branch). -/
def findInIndirectBlks (st : FsState) (raw : RawInode) (orAlloc : Bool)
    (offset lenv : Nat) : Except FsError (IndirectBlks × RawInode × FsState) :=
  let log2 := st.blkSizeLog2
  let cont : Nat → RawInode → FsState →
      Except FsError (IndirectBlks × RawInode × FsState) :=
    fun indirect_blk raw2 st2 =>
      let nth_blk := divBy log2 offset
      let first_blk_offset := modBy log2 offset
      let n_blks := min (divRoundUpBy log2 (first_blk_offset + lenv))
        (st2.blkIdsCountPreBlk - nth_blk)
      let addr : Addr := ⟨indirect_blk, nth_blk * 2⟩
      let ids := bytesToIdsBE
        (diskReadRange st2.disk (addr.absOffset log2) (n_blks * 2))
      let lastLen := if n_blks == 1 then LenOfBlk.len lenv
        else LenOfBlk.len (modBy log2 (offset + lenv))
      if orAlloc then
        match allocZeroIds st2.blkAllocator ids with
        | Except.error e => Except.error e
        | Except.ok r =>
          let st3 := { st2 with blkAllocator := r.2.1 }
          let bytes2 := idsToBytesBE r.1
          let st4 := if r.2.2 then
              { st3 with disk := diskWrite st3.disk (addr.absOffset log2) bytes2 }
            else st3
          Except.ok (⟨r.1, first_blk_offset, lastLen⟩, raw2, st4)
      else
        Except.ok (⟨ids, first_blk_offset, lastLen⟩, raw2, st2)
  if raw.indirect_blk == 0 then
    if orAlloc then
      match Allocator.alloc st.blkAllocator with
      | none => Except.error FsError.noSpace
      | some pr =>
        cont pr.1 { raw with indirect_blk := pr.1 }
          { st with blkAllocator := pr.2 }
    else
      Except.ok (IndirectBlks.empty, raw, st)
  else
    cont raw.indirect_blk raw st

/-- Inode::io_blks. -/
def ioBlks (st : FsState) (raw : RawInode) (orAlloc : Bool)
    (offset lenv : Nat) : Except FsError (IoBlks × RawInode × FsState) :=
  let dlen := directBlkLen st.blkSizeLog2
  if dlen ≤ offset then
    match findInIndirectBlks st raw orAlloc offset lenv with
    | Except.error e => Except.error e
    | Except.ok r => Except.ok (⟨none, some r.1⟩, r.2.1, r.2.2)
  else if offset + lenv < dlen then
    match findInDirectBlks st raw orAlloc offset lenv with
    | Except.error e => Except.error e
    | Except.ok r => Except.ok (⟨some r.1, none⟩, r.2.1, r.2.2)
  else
    match findInDirectBlks st raw orAlloc offset lenv with
    | Except.error e => Except.error e
    | Except.ok r =>
      match findInIndirectBlks r.2.2 r.2.1 orAlloc 0 (lenv - (dlen - offset)) with
      | Except.error e => Except.error e
      | Except.ok r2 => Except.ok (⟨some r.1, some r2.1⟩, r2.2.1, r2.2.2)

/-- The read loop of Inode::read_at: for each extent, read blk.len bytes
from the device into the buffer slice, accumulating the read length. -/
def readLoop (st : FsState) : List Blk → Nat → Nat → List Nat → Nat × List Nat
  | [], _, rl, buf => (rl, buf)
  | blk :: rest, ro, rl, buf =>
    let l := blk.len st.blkSizeLog2
    let bytes := diskReadRange st.disk (blk.addr.absOffset st.blkSizeLog2) l
    readLoop st rest (ro + l) (rl + l) (bufWriteRange buf ro bytes)

/-- Inode::read_at: clamp to inode size, compute extents, run the read
loop.  Returns the read length and the final buffer content. -/
def readAt (st : FsState) (raw : RawInode) (offset : Nat) (buf : List Nat) :
    Except FsError (Nat × List Nat) :=
  if raw.size ≤ offset then Except.ok (0, buf)
  else
    let remaining := raw.size - offset
    let buf2 := if remaining < buf.length then buf.take remaining else buf
    match ioBlks st raw false offset buf2.length with
    | Except.error e => Except.error e
    | Except.ok r =>
      let res := readLoop st (IoBlks.iter r.1) 0 0 buf2
      Except.ok (res.1, res.2 ++ buf.drop buf2.length)

/-- The write loop of Inode::write_at. -/
def writeLoop (log2 : Nat) (data : List Nat) :
    List Blk → Nat → Nat → (Nat → Nat) → Nat × (Nat → Nat)
  | [], _, wl, d => (wl, d)
  | blk :: rest, wo, wl, d =>
    let l := blk.len log2
    let d2 := diskWrite d (blk.addr.absOffset log2) ((data.drop wo).take l)
    writeLoop log2 data rest (wo + l) (wl + l) d2

/-- Inode::write_at: compute extents with allocation, write each extent,
then grow the size to max(size, offset + written). -/
def writeAt (st : FsState) (raw : RawInode) (offset : Nat) (data : List Nat) :
    Except FsError (FsState × RawInode × Nat) :=
  match ioBlks st raw true offset data.length with
  | Except.error e => Except.error e
  | Except.ok r =>
    let wr := writeLoop st.blkSizeLog2 data (IoBlks.iter r.1) 0 0 r.2.2.disk
    let raw2 := if r.2.1.size < offset + wr.1 then
        { r.2.1 with size := offset + wr.1 }
      else r.2.1
    Except.ok ({ r.2.2 with disk := wr.2 }, raw2, wr.1)

/-- The concrete scenario state: block size 4 (log2 = 2), 2 ids per
indirect block, a one-word block allocator, an all-zero disk. -/
def st0 : FsState := ⟨2, 2, ⟨⟨[0]⟩, 0, 64, 64⟩, fun _ => 0⟩

/-- A freshly created regular-file inode: size 0, twelve zero direct block
ids, no indirect block. -/
def raw0 : RawInode := ⟨0, List.replicate 12 0, 0⟩

end NaiveFs

/-- C2 counterexample: create an inode, write one byte at blksz*5 (blksz=4):
the inode size becomes blksz*5+1 = 21, but read_at(0, blksz-byte buffer)
returns 0 bytes — not min(buf.len, size - offset) = blksz — and the buffer
keeps its previous content instead of blksz zero bytes: BlksRange::next
stops at the first zero block id, so the read loop never runs. -/
theorem C2_read_hole_counterexample :
    match NaiveFs.writeAt NaiveFs.st0 NaiveFs.raw0 (4 * 5) [88] with
    | Except.ok r =>
        r.2.2 = 1 ∧ r.2.1.size = 4 * 5 + 1 ∧
        NaiveFs.readAt r.1 r.2.1 0 (List.replicate 4 7) =
          Except.ok (0, List.replicate 4 7) ∧
        (0 : Nat) ≠ min (List.replicate 4 7).length (r.2.1.size - 0)
    | Except.error _ => False := by
  exact ⟨rfl, rfl, rfl, by decide⟩

/-- C2 amended: reads at or beyond inode.size are clamped to 0 bytes; but
there is no hole zero-fill: the extent iterator stops at the first zero
block id, so a read whose first covering block is a hole transfers nothing.
In the scenario (one byte written at blksz*5), the size is blksz*5+1 and
read_at(0, blksz) returns 0 bytes with the buffer untouched. -/
theorem C2_read_clamp_and_hole_stop :
    (∀ (st : NaiveFs.FsState) (raw : NaiveFs.RawInode) (offset : Nat)
        (buf : List Nat), raw.size ≤ offset →
        NaiveFs.readAt st raw offset buf = Except.ok (0, buf)) ∧
    (match NaiveFs.writeAt NaiveFs.st0 NaiveFs.raw0 (4 * 5) [88] with
     | Except.ok r =>
         r.2.2 = 1 ∧ r.2.1.size = 4 * 5 + 1 ∧
         NaiveFs.readAt r.1 r.2.1 0 (List.replicate 4 7) =
           Except.ok (0, List.replicate 4 7)
     | Except.error _ => False) := by
  constructor
  · intro st raw offset buf h
    unfold NaiveFs.readAt
    rw [if_pos h]
  · exact ⟨rfl, rfl, rfl⟩

/-- C2 witness: the clamp applied to the scenario inode at an offset equal
to its size. -/
theorem C2_read_clamp_and_hole_stop_witness :
    NaiveFs.readAt NaiveFs.st0 NaiveFs.raw0 0 [1, 2, 3] = Except.ok (0, [1, 2, 3]) :=
  C2_read_clamp_and_hole_stop.1 NaiveFs.st0 NaiveFs.raw0 0 [1, 2, 3] (by decide)

/-! ## C8: memory segments (src/crates/mm/src/memory.rs) -/

inductive MapType where
  | linear
  | framed
  deriving DecidableEq, Repr

/-- Segment { addr_range, flags, map_type }; the range is the half-open
interval [rstart, rend). -/
structure Segment where
  rstart : Nat
  rend : Nat
  flags : Nat
  mapType : MapType
  deriving DecidableEq, Repr

/-- Rust Range::contains on the segment address range: start <= x < end. -/
def Segment.containsAddr (s : Segment) (x : Nat) : Bool :=
  decide (s.rstart ≤ x) && decide (x < s.rend)

/-- The per-segment test of Memory::check_overlap:
`segment.addr_range.contains(&new.start) || new.contains(&segment.start)`. -/
def segOverlap (s newSeg : Segment) : Bool :=
  s.containsAddr newSeg.rstart || newSeg.containsAddr s.rstart

/-- mm::Error. -/
inductive MmError where
  | addressOverlap (existing newRange : Nat × Nat)
  | noSpace
  | invalidVirtualAddress (va : Nat)
  | invalidPageTable (pte : Nat)
  deriving DecidableEq, Repr

/-- Memory { kernel_segments, user_segments, page_mapper }; the page mapper
state is abstract (type parameter M). -/
structure Memory (M : Type) where
  kernel_segments : List Segment
  user_segments : List Segment
  page_mapper : M

namespace Memory

/-- Memory::check_overlap: scan kernel then user segments, failing with
AddressOverlap(existing, new) on the first segment whose range contains the
new range's start or whose start the new range contains. -/
def checkOverlap (m : Memory M) (newSeg : Segment) : Except MmError Unit :=
  match (m.kernel_segments ++ m.user_segments).find? (fun s => segOverlap s newSeg) with
  | some s =>
      Except.error (MmError.addressOverlap (s.rstart, s.rend) (newSeg.rstart, newSeg.rend))
  | none => Except.ok ()

/-- Memory::add_kernel_segment, as a state-passing run: check overlap first
(returning early with the state untouched), then run Segment::map on the
page mapper (mapFn, abstract), then push the segment.  The FlushAllGuard
result value is elided. -/
def addKernelSegmentRun (mapFn : Segment → M → M × Except MmError Unit)
    (m : Memory M) (seg : Segment) : Memory M × Except MmError Unit :=
  match m.checkOverlap seg with
  | Except.error e => (m, Except.error e)
  | Except.ok _ =>
    let pr := mapFn seg m.page_mapper
    match pr.2 with
    | Except.error e => ({ m with page_mapper := pr.1 }, Except.error e)
    | Except.ok _ =>
        ({ m with page_mapper := pr.1,
                  kernel_segments := m.kernel_segments ++ [seg] }, Except.ok ())

/-- Memory::add_user_segment (init_data is folded into mapFn). -/
def addUserSegmentRun (mapFn : Segment → M → M × Except MmError Unit)
    (m : Memory M) (seg : Segment) : Memory M × Except MmError Unit :=
  match m.checkOverlap seg with
  | Except.error e => (m, Except.error e)
  | Except.ok _ =>
    let pr := mapFn seg m.page_mapper
    match pr.2 with
    | Except.error e => ({ m with page_mapper := pr.1 }, Except.error e)
    | Except.ok _ =>
        ({ m with page_mapper := pr.1,
                  user_segments := m.user_segments ++ [seg] }, Except.ok ())

end Memory

/-- C8: add_kernel_segment / add_user_segment fail with
AddressOverlap(existing, new) exactly when some already-added segment's
range contains the new range's start or the new range contains that
segment's start; on such a failure the segment lists and the page mapper
are unchanged (the overlap check runs before any mapping). -/
theorem C8_add_segment_overlap (M : Type)
    (kmapFn umapFn : Segment → M → M × Except MmError Unit)
    (m : Memory M) (seg : Segment) :
    ((∃ s ∈ m.kernel_segments ++ m.user_segments, segOverlap s seg = true) →
      ∃ ex : Nat × Nat,
        Memory.addKernelSegmentRun kmapFn m seg =
          (m, Except.error (MmError.addressOverlap ex (seg.rstart, seg.rend))) ∧
        Memory.addUserSegmentRun umapFn m seg =
          (m, Except.error (MmError.addressOverlap ex (seg.rstart, seg.rend)))) ∧
    ((¬ ∃ s ∈ m.kernel_segments ++ m.user_segments, segOverlap s seg = true) →
      Memory.checkOverlap m seg = Except.ok ()) := by
  constructor
  · intro hex
    have hsome : ((m.kernel_segments ++ m.user_segments).find?
        (fun s => segOverlap s seg)).isSome := by
      rw [List.find?_isSome]
      obtain ⟨s, hs, hov⟩ := hex
      exact ⟨s, hs, by simpa using hov⟩
    obtain ⟨s, hfind⟩ := Option.isSome_iff_exists.mp hsome
    refine ⟨(s.rstart, s.rend), ?_, ?_⟩
    · unfold Memory.addKernelSegmentRun Memory.checkOverlap
      rw [hfind]
    · unfold Memory.addUserSegmentRun Memory.checkOverlap
      rw [hfind]
  · intro hnone
    have : (m.kernel_segments ++ m.user_segments).find?
        (fun s => segOverlap s seg) = none := by
      rw [List.find?_eq_none]
      intro s hs
      simp only [Bool.not_eq_true]
      by_contra hcon
      exact hnone ⟨s, hs, by simpa using hcon⟩
    unfold Memory.checkOverlap
    rw [this]

/-- C8 witness: a concrete memory with one kernel segment [0,10) and a new
segment [5,15): the overlap is detected, both adds fail with
AddressOverlap and return the memory unchanged. -/
theorem C8_add_segment_overlap_witness :
    ∃ ex : Nat × Nat,
      Memory.addKernelSegmentRun (M := Unit) (fun _ u => (u, Except.ok ()))
        ⟨[⟨0, 10, 0, MapType.linear⟩], [], ()⟩ ⟨5, 15, 0, MapType.linear⟩ =
        (⟨[⟨0, 10, 0, MapType.linear⟩], [], ()⟩,
          Except.error (MmError.addressOverlap ex (5, 15))) ∧
      Memory.addUserSegmentRun (M := Unit) (fun _ u => (u, Except.ok ()))
        ⟨[⟨0, 10, 0, MapType.linear⟩], [], ()⟩ ⟨5, 15, 0, MapType.linear⟩ =
        (⟨[⟨0, 10, 0, MapType.linear⟩], [], ()⟩,
          Except.error (MmError.addressOverlap ex (5, 15))) := by
  exact (C8_add_segment_overlap Unit (fun _ u => (u, Except.ok ()))
      (fun _ u => (u, Except.ok ()))
      ⟨[⟨0, 10, 0, MapType.linear⟩], [], ()⟩ ⟨5, 15, 0, MapType.linear⟩).1
    ⟨⟨0, 10, 0, MapType.linear⟩, by simp, by decide⟩

/-! ## C9: FIFO executor (src/crates/executor/src/fifo.rs) -/

/-- Replace the value stored under key k in an association list (BTreeMap
update of an existing key). -/
def alistReplace (k : Nat) (v : F) : List (Nat × F) → List (Nat × F)
  | [] => []
  | e :: rest => if e.1 == k then (k, v) :: rest else e :: alistReplace k v rest

/-- Remove the entry with key k (BTreeMap::remove). -/
def alistErase (k : Nat) (l : List (Nat × F)) : List (Nat × F) :=
  l.eraseP (fun e => e.1 == k)

/-- FIFOExecutor::run_ready_tasks.  The task map is an association list of
(thread id, future state); a future is polled through pollF, which returns
the advanced future state, whether the poll was Ready, and the ids the poll
woke (TaskWaker pushes onto the back of the ready queue).  When a popped id
has no entry the loop continues; on Ready the entry is removed; on Pending
the polled future state is stored back.  The fuel bounds the number of
loop iterations of this run (the source loop runs until the queue is
empty); the poll log records (id, was_ready) for each performed poll. -/
def runReadyGo (pollF : F → F × Bool × List Nat) :
    Nat → List (Nat × F) → List Nat → List (Nat × Bool) →
    List (Nat × F) × List Nat × List (Nat × Bool)
  | 0, tasks, queue, log => (tasks, queue, log)
  | fuel + 1, tasks, queue, log =>
    match queue with
    | [] => (tasks, [], log)
    | tid :: rest =>
      match List.lookup tid tasks with
      | none => runReadyGo pollF fuel tasks rest log
      | some f =>
        let pr := pollF f
        if pr.2.1 then
          runReadyGo pollF fuel (alistErase tid tasks) (rest ++ pr.2.2)
            (log ++ [(tid, true)])
        else
          runReadyGo pollF fuel (alistReplace tid pr.1 tasks) (rest ++ pr.2.2)
            (log ++ [(tid, false)])

theorem alistReplace_keys (k : Nat) (v : F) (l : List (Nat × F)) :
    (alistReplace k v l).map Prod.fst = l.map Prod.fst := by
  induction l with
  | nil => rfl
  | cons e rest ih =>
    by_cases hk : (e.1 == k) = true
    · simp only [alistReplace, if_pos hk, List.map_cons]
      have he : e.1 = k := by simpa using hk
      rw [he]
    · simp only [alistReplace, if_neg hk, List.map_cons, ih]

theorem lookup_eq_none_of_not_mem_keys {tid : Nat} {l : List (Nat × F)}
    (h : tid ∉ l.map Prod.fst) : List.lookup tid l = none := by
  rw [List.lookup_eq_none_iff]
  intro p hp
  simp only [bne_iff_ne]
  intro heq
  exact h (heq ▸ List.mem_map_of_mem Prod.fst hp)

theorem lookup_alistReplace_none {k tid : Nat} {v : F} {l : List (Nat × F)}
    (h : List.lookup tid l = none) :
    List.lookup tid (alistReplace k v l) = none := by
  rw [List.lookup_eq_none_iff] at h ⊢
  intro p hp
  have hkey : p.1 ∈ (alistReplace k v l).map Prod.fst := List.mem_map_of_mem Prod.fst hp
  rw [alistReplace_keys] at hkey
  obtain ⟨q, hq, hqe⟩ := List.mem_map.mp hkey
  have hne := h q hq
  simp only [bne_iff_ne] at hne ⊢
  rw [← hqe]
  exact hne

theorem lookup_eraseP_none {tid : Nat} {p : Nat × F → Bool} {l : List (Nat × F)}
    (h : List.lookup tid l = none) :
    List.lookup tid (l.eraseP p) = none := by
  rw [List.lookup_eq_none_iff] at h ⊢
  intro q hq
  exact h q ((List.eraseP_sublist l).subset hq)

theorem lookup_alistErase_self {k : Nat} {l : List (Nat × F)}
    (h : (l.map Prod.fst).Nodup) :
    List.lookup k (alistErase k l) = none := by
  induction l with
  | nil => simp [alistErase]
  | cons e rest ih =>
    obtain ⟨e1, e2⟩ := e
    simp only [List.map_cons, List.nodup_cons] at h
    by_cases he : (e1 == k) = true
    · have hek : e1 = k := by simpa using he
      simp only [alistErase, List.eraseP_cons, he, cond_true]
      exact lookup_eq_none_of_not_mem_keys (hek ▸ h.1)
    · simp only [alistErase, List.eraseP_cons, he, cond_false]
      have hne : e1 ≠ k := by simpa using he
      have hke : (k == e1) = false := by
        rw [beq_eq_false_iff_ne]
        exact fun hc => hne hc.symm
      rw [List.lookup_cons]
      simp only [hke]
      exact ih h.2

theorem alistErase_keys_nodup {k : Nat} {l : List (Nat × F)}
    (h : (l.map Prod.fst).Nodup) : ((alistErase k l).map Prod.fst).Nodup :=
  h.sublist ((List.eraseP_sublist l).map Prod.fst)

/-- Absent keys stay absent across a whole run (the loop never inserts). -/
theorem runReadyGo_lookup_none_preserved (pollF : F → F × Bool × List Nat)
    (fuel : Nat) :
    ∀ (tasks : List (Nat × F)) (queue : List Nat) (log : List (Nat × Bool))
      (tid : Nat), List.lookup tid tasks = none →
      List.lookup tid (runReadyGo pollF fuel tasks queue log).1 = none := by
  induction fuel with
  | zero => intro tasks queue log tid h; exact h
  | succ fuel ih =>
    intro tasks queue log tid h
    match queue with
    | [] => exact h
    | tid2 :: rest =>
      simp only [runReadyGo]
      match hl : List.lookup tid2 tasks with
      | none => exact ih tasks rest log tid h
      | some f =>
        by_cases hr : (pollF f).2.1
        · simp only [hl, if_pos hr]
          exact ih _ _ _ tid (lookup_eraseP_none h)
        · simp only [hl, if_neg hr]
          exact ih _ _ _ tid (lookup_alistReplace_none h)

/-- Key nodup is preserved across a run. -/
theorem runReadyGo_keys_nodup (pollF : F → F × Bool × List Nat) (fuel : Nat) :
    ∀ (tasks : List (Nat × F)) (queue : List Nat) (log : List (Nat × Bool)),
      (tasks.map Prod.fst).Nodup →
      (((runReadyGo pollF fuel tasks queue log).1).map Prod.fst).Nodup := by
  induction fuel with
  | zero => intro tasks queue log h; exact h
  | succ fuel ih =>
    intro tasks queue log h
    match queue with
    | [] => exact h
    | tid2 :: rest =>
      simp only [runReadyGo]
      match hl : List.lookup tid2 tasks with
      | none => exact ih tasks rest log h
      | some f =>
        by_cases hr : (pollF f).2.1
        · simp only [hl, if_pos hr]
          exact ih _ _ _ (alistErase_keys_nodup h)
        · simp only [hl, if_pos, if_neg hr]
          exact ih _ _ _ (by rw [alistReplace_keys]; exact h)

/-- Ready polls remove: any id polled Ready during the run (unless it was
already recorded in the incoming log) is absent from the final task map. -/
theorem runReadyGo_ready_removed (pollF : F → F × Bool × List Nat) (fuel : Nat) :
    ∀ (tasks : List (Nat × F)) (queue : List Nat) (log : List (Nat × Bool))
      (tid : Nat),
      (tasks.map Prod.fst).Nodup →
      (tid, true) ∈ (runReadyGo pollF fuel tasks queue log).2.2 →
      (tid, true) ∈ log ∨
        List.lookup tid (runReadyGo pollF fuel tasks queue log).1 = none := by
  induction fuel with
  | zero => intro tasks queue log tid _ hmem; exact Or.inl hmem
  | succ fuel ih =>
    intro tasks queue log tid hnd hmem
    match queue with
    | [] => exact Or.inl hmem
    | tid2 :: rest =>
      simp only [runReadyGo] at hmem ⊢
      match hl : List.lookup tid2 tasks with
      | none =>
        rw [hl] at hmem
        exact ih tasks rest log tid hnd hmem
      | some f =>
        by_cases hr : (pollF f).2.1
        · rw [hl] at hmem
          simp only [if_pos hr] at hmem ⊢
          rcases ih _ _ _ tid (alistErase_keys_nodup hnd) hmem with hin | hnone
          · rcases List.mem_append.mp hin with hold | hnew
            · exact Or.inl hold
            · have : tid = tid2 := by
                simp only [List.mem_singleton, Prod.mk.injEq] at hnew
                exact hnew.1
              subst this
              exact Or.inr (runReadyGo_lookup_none_preserved pollF fuel _ _ _ tid
                (lookup_alistErase_self hnd))
          · exact Or.inr hnone
        · rw [hl] at hmem
          simp only [if_neg hr] at hmem ⊢
          rcases ih _ _ _ tid (by rw [alistReplace_keys]; exact hnd) hmem with hin | hnone
          · rcases List.mem_append.mp hin with hold | hnew
            · exact Or.inl hold
            · simp only [List.mem_singleton, Prod.mk.injEq] at hnew
              exact absurd hnew.2 (by simp)
          · exact Or.inr hnone

/-- C9: whenever run_ready_tasks polls a task's future and the poll returns
Ready, that entry is removed from the task map and never reinserted during
the run: any id whose poll is logged Ready is absent from the final task
map (keys of the task map are unique, which FIFOExecutor::spawn enforces
by panicking on duplicate insertion). -/
theorem C9_run_ready_tasks_removes_ready (F : Type)
    (pollF : F → F × Bool × List Nat) (fuel : Nat)
    (tasks : List (Nat × F)) (queue : List Nat) (tid : Nat)
    (hnd : (tasks.map Prod.fst).Nodup)
    (hready : (tid, true) ∈ (runReadyGo pollF fuel tasks queue []).2.2) :
    List.lookup tid (runReadyGo pollF fuel tasks queue []).1 = none := by
  rcases runReadyGo_ready_removed pollF fuel tasks queue [] tid hnd hready with h | h
  · exact absurd h (by simp)
  · exact h

/-- C9 witness: two thread futures (the parent and the child of a fork),
each completing on its first poll; after the run neither id is present in
the task map. -/
theorem C9_run_ready_tasks_removes_ready_witness :
    List.lookup 1 (runReadyGo (F := Nat) (fun n => (n, true, [])) 2
      [(1, 0), (2, 0)] [1, 2] []).1 = none ∧
    List.lookup 2 (runReadyGo (F := Nat) (fun n => (n, true, [])) 2
      [(1, 0), (2, 0)] [1, 2] []).1 = none := by
  constructor
  · exact C9_run_ready_tasks_removes_ready Nat (fun n => (n, true, [])) 2
      [(1, 0), (2, 0)] [1, 2] 1 (by decide) (by decide)
  · exact C9_run_ready_tasks_removes_ready Nat (fun n => (n, true, [])) 2
      [(1, 0), (2, 0)] [1, 2] 2 (by decide) (by decide)

/-! ## C10: file descriptor seek (src/src/proc/file.rs, Descriptor::seek) -/

/-- SeekFrom (src/src/proc/file.rs); `End` is called `fromEnd` (reserved
word). -/
inductive SeekFrom where
  | start (offset : Nat)
  | fromEnd (delta : Int)
  | current (delta : Int)
  deriving DecidableEq, Repr

inductive SeekError where
  | invalidSeekOffset
  deriving DecidableEq, Repr

/-- Reinterpretation of a u64 value as i64 (`metadata.size as i64`). -/
def i64OfU64 (n : Nat) : Int := if n < 2 ^ 63 then (n : Int) else (n : Int) - 2 ^ 64

/-- Reinterpretation of an i64 value as u64 (`offset as u64`). -/
def u64OfI64 (i : Int) : Nat := (i % 2 ^ 64).toNat

/-- Two's-complement wrap of an integer into the i64 range [-2^63, 2^63):
the result of the source's `-` on i64 operands (release-profile wrapping
semantics; with overflow checks the out-of-range case would panic instead
of producing a value, and in neither case does the source return the
mathematical difference). -/
def i64Wrap (x : Int) : Int := (x + 2 ^ 63) % 2 ^ 64 - 2 ^ 63

/-- Descriptor::seek.  The descriptor state is its stored offset `cur`;
`size` is the inode metadata size.  `metadata.size as i64 - delta` and
`desc.offset as i64 - delta` are i64 subtractions, hence the `i64Wrap`.
On success the new stored offset (which is also the returned value) is
produced; on InvalidSeekOffset the source returns before writing the
offset, so the stored offset is unchanged. -/
def Descriptor.seek (cur size : Nat) : SeekFrom → Except SeekError Nat
  | SeekFrom.start o => Except.ok o
  | SeekFrom.fromEnd d =>
      if i64Wrap (i64OfU64 size - d) < 0 then
        Except.error SeekError.invalidSeekOffset
      else Except.ok (u64OfI64 (i64Wrap (i64OfU64 size - d)))
  | SeekFrom.current d =>
      if i64Wrap (i64OfU64 cur - d) < 0 then
        Except.error SeekError.invalidSeekOffset
      else Except.ok (u64OfI64 (i64Wrap (i64OfU64 cur - d)))

/-- C10 counterexample to the unqualified claim: with stored offset 0, file
size 1, seek(End(-2^63)) has nonnegative mathematical result
1 - (-2^63) = 2^63 + 1, so by the claim the seek should succeed with that
offset; but the source's i64 subtraction `1i64 - i64::MIN` overflows
(wrapping to 1 - 2^63 < 0), and the code returns Err(InvalidSeekOffset). -/
theorem C10_seek_overflow_counterexample :
    Descriptor.seek 0 1 (SeekFrom.fromEnd (-(2 ^ 63))) =
      Except.error SeekError.invalidSeekOffset ∧
    (0 : Int) ≤ (1 : Int) - (-(2 ^ 63)) := by
  constructor
  · rfl
  · decide

/-- C10 (amended): seek(Start(o)) stores o.  seek(End(delta)) and
seek(Current(delta)) subtract delta from size (resp. the current offset) in
i64 arithmetic: when the mathematical difference size - delta (resp.
cur - delta) lies in [0, 2^63) the seek succeeds and stores it; when the
difference is negative, or is ≥ 2^63 so that the i64 subtraction wraps to a
negative value, the result is Err(InvalidSeekOffset) and (the write being
after the check) the stored offset is unchanged.  Stated for stored
offsets/sizes below 2^63 (the source's `as i64` cast is then
value-preserving) and deltas in the i64 range. -/
theorem C10_descriptor_seek_semantics (cur size : Nat)
    (hc : cur < 2 ^ 63) (hs : size < 2 ^ 63) :
    (∀ o : Nat, Descriptor.seek cur size (SeekFrom.start o) = Except.ok o) ∧
    (∀ d : Int, -(2 ^ 63) ≤ d → d < 2 ^ 63 →
      ((size : Int) - d < 0 ∨ 2 ^ 63 ≤ (size : Int) - d →
        Descriptor.seek cur size (SeekFrom.fromEnd d) =
          Except.error SeekError.invalidSeekOffset) ∧
      (0 ≤ (size : Int) - d → (size : Int) - d < 2 ^ 63 →
        Descriptor.seek cur size (SeekFrom.fromEnd d) =
          Except.ok ((size : Int) - d).toNat)) ∧
    (∀ d : Int, -(2 ^ 63) ≤ d → d < 2 ^ 63 →
      (((cur : Int) - d < 0 ∨ 2 ^ 63 ≤ (cur : Int) - d →
        Descriptor.seek cur size (SeekFrom.current d) =
          Except.error SeekError.invalidSeekOffset) ∧
      (0 ≤ (cur : Int) - d → (cur : Int) - d < 2 ^ 63 →
        Descriptor.seek cur size (SeekFrom.current d) =
          Except.ok ((cur : Int) - d).toNat))) := by
  have hcast : ∀ n : Nat, n < 2 ^ 63 → i64OfU64 n = (n : Int) := by
    intro n hn
    unfold i64OfU64
    rw [if_pos hn]
  have hsz : (size : Int) < 2 ^ 63 := by exact_mod_cast hs
  have hcz : (cur : Int) < 2 ^ 63 := by exact_mod_cast hc
  have hsz0 : (0 : Int) ≤ (size : Int) := Int.ofNat_nonneg size
  have hcz0 : (0 : Int) ≤ (cur : Int) := Int.ofNat_nonneg cur
  refine ⟨fun o => rfl, fun d hd hd2 => ?_, fun d hd hd2 => ?_⟩
  · constructor
    · intro hneg
      simp only [Descriptor.seek, hcast size hs, i64Wrap]
      rw [if_pos (by omega)]
    · intro hpos hlt
      have hwrap : i64Wrap ((size : Int) - d) = (size : Int) - d := by
        unfold i64Wrap
        omega
      simp only [Descriptor.seek, hcast size hs, hwrap]
      rw [if_neg (by omega)]
      simp only [u64OfI64]
      rw [Int.emod_eq_of_lt hpos (by omega)]
  · constructor
    · intro hneg
      simp only [Descriptor.seek, hcast cur hc, i64Wrap]
      rw [if_pos (by omega)]
    · intro hpos hlt
      have hwrap : i64Wrap ((cur : Int) - d) = (cur : Int) - d := by
        unfold i64Wrap
        omega
      simp only [Descriptor.seek, hcast cur hc, hwrap]
      rw [if_neg (by omega)]
      simp only [u64OfI64]
      rw [Int.emod_eq_of_lt hpos (by omega)]

/-- C10 witness: the seek semantics applied to a concrete descriptor
(stored offset 100, size 50): Start(7) stores 7; End(60) underflows below
zero and errors; Current(60) stores 40; Current(-(2^63 - 50)) overflows the
i64 subtraction and errors. -/
theorem C10_descriptor_seek_semantics_witness :
    Descriptor.seek 100 50 (SeekFrom.start 7) = Except.ok 7 ∧
    Descriptor.seek 100 50 (SeekFrom.fromEnd 60) =
      Except.error SeekError.invalidSeekOffset ∧
    Descriptor.seek 100 50 (SeekFrom.current 60) = Except.ok 40 ∧
    Descriptor.seek 100 50 (SeekFrom.current (-(2 ^ 63 - 100))) =
      Except.error SeekError.invalidSeekOffset := by
  have h := C10_descriptor_seek_semantics 100 50 (by decide) (by decide)
  refine ⟨h.1 7, ?_, ?_, ?_⟩
  · exact (h.2.1 60 (by decide) (by decide)).1 (Or.inl (by decide))
  · have := (h.2.2 60 (by decide) (by decide)).2 (by decide) (by decide)
    simpa using this
  · exact (h.2.2 (-(2 ^ 63 - 100)) (by decide) (by decide)).1
      (Or.inr (by decide))

/-!
## C3: page-table copy-on-write clone (`PageTable::borrow_memory`)

Model of `src/crates/mm/src/page/table.rs` (`PageTable::borrow_memory`,
`PageTableEntry::borrow_memory`) over the riscv Sv39 page parameters of
`src/crates/mm/src/arch/riscv/page.rs`. Physical memory is a total map from
(frame start address, entry index) to the raw 64-bit PTE value; `Frame` is
`Space<PhysicalAddress>`, i.e. just its start address. The frame allocator is
modelled as a counter handing out fresh, pairwise distinct, 4096-aligned
frames (`frameAddr c = c <<< 12`); freshly allocated frames are not zeroed by
`borrow_memory`, so the target table initially holds whatever the memory map
says.

`entry_iter` in the source is `(0..PTE_COUNT).map(get_entry).filter(is_valid)`
and `borrow_memory` iterates `entry_iter().enumerate()`: the `enumerate`
counts the *filtered* stream, so the target index advances only on valid
source entries. `borrowEntriesGo` reproduces this with the separate target
index `t`.
-/

def FLAG_PTE_READABLE : Nat := 1 <<< 1

def FLAG_PTE_WRITEABLE : Nat := 1 <<< 2

def FLAG_PTE_EXECUTABLE : Nat := 1 <<< 3

def FLAG_PTE_VALID : Nat := 1 <<< 0

def PTE_COUNT : Nat := 512

/-- `PageParam::pte_is_valid`: `(pte & FLAG_PTE_VALID) == FLAG_PTE_VALID`. -/
def pteIsValid (pte : Nat) : Bool := pte &&& FLAG_PTE_VALID == FLAG_PTE_VALID

/-- `PageParamSv39::pte_has_next_table`:
`pte & (READABLE | WRITEABLE | EXECUTABLE) == 0`. -/
def pteHasNextTable (pte : Nat) : Bool :=
  pte &&& (FLAG_PTE_READABLE ||| FLAG_PTE_WRITEABLE ||| FLAG_PTE_EXECUTABLE) == 0

/-- `PageParamSv39::pte_address`: `(pte & 0x3F_FFFF_FFFF_FC00) << 2`. -/
def pteAddress (pte : Nat) : Nat := (pte &&& 0x3FFFFFFFFFFC00) <<< 2

/-- `PageParamSv39::create_nonleaf_pte`:
`((addr >> 2) & 0x3F_FFFF_FFFF_FC00) | FLAG_PTE_VALID`. -/
def createNonleafPte (addr : Nat) : Nat :=
  ((addr >>> 2) &&& 0x3FFFFFFFFFFC00) ||| FLAG_PTE_VALID

/-- `PageParam::pte_borrow`: `pte & !FLAG_PTE_WRITEABLE` on usize (64-bit). -/
def pteBorrow (pte : Nat) : Nat := pte &&& ((2 ^ 64 - 1) ^^^ FLAG_PTE_WRITEABLE)

/-- Physical memory: frame start address and PTE index to raw PTE value. -/
def Mem : Type := Nat → Nat → Nat

def memSet (m : Mem) (f i v : Nat) : Mem :=
  fun f2 i2 => if f2 = f ∧ i2 = i then v else m f2 i2

/-- Start address of the `c`-th frame handed out by the allocator model. -/
def frameAddr (c : Nat) : Nat := c <<< 12

/-- The `for (idx, pte) in entry_iter().enumerate()` loop of
`PageTable::borrow_memory`, together with the per-entry
`PageTableEntry::borrow_memory`: `idxs` is the remaining source indices,
`t` the enumerate counter of the filtered iterator (the target entry index),
`ctr` the allocator counter. `child` performs the recursive
`tab.borrow_memory(allocator)` for entries that have a next-level table and
returns the updated memory, allocator counter, and the new table's frame. -/
def borrowEntriesGo (child : Mem → Nat → Nat → Option (Mem × Nat × Nat))
    (src tgt : Nat) : List Nat → Nat → Mem → Nat → Option (Mem × Nat)
  | [], _, m, ctr => some (m, ctr)
  | idx :: rest, t, m, ctr =>
    let pte := m src idx
    if pteIsValid pte then
      if pteHasNextTable pte then
        match child m ctr (pteAddress pte) with
        | none => none
        | some r =>
          borrowEntriesGo child src tgt rest (t + 1)
            (memSet r.1 tgt t (createNonleafPte r.2.2)) r.2.1
      else
        borrowEntriesGo child src tgt rest (t + 1)
          (memSet m tgt t (pteBorrow pte)) ctr
    else borrowEntriesGo child src tgt rest t m ctr

/-- `PageTable::borrow_memory`: allocate the target frame, then run the
entry loop; `fuel` bounds the recursion depth (`PAGE_LEVELS` in the source).
Returns (memory, allocator counter, target frame start address). -/
def borrowTable (n : Nat) : Nat → Mem → Nat → Nat → Option (Mem × Nat × Nat)
  | 0, _, _, _ => none
  | fuel + 1, m, ctr, src =>
    match
      borrowEntriesGo (fun m2 c2 s2 => borrowTable n fuel m2 c2 s2) src
        (frameAddr ctr) (List.range n) 0 m (ctr + 1)
    with
    | none => none
    | some r => some (r.1, r.2, frameAddr ctr)

/-- Walk a page-table tree along a path of entry indices (the repeated
`get_entry` / `next_page_table` walk): returns the raw PTE reached at the
end of the path. -/
def lookupPte (n : Nat) (m : Mem) : Nat → List Nat → Option Nat
  | _, [] => none
  | f, idx :: rest =>
    if idx < n then
      match rest with
      | [] => some (m f idx)
      | _ :: _ =>
        if pteIsValid (m f idx) && pteHasNextTable (m f idx) then
          lookupPte n m (pteAddress (m f idx)) rest
        else none
    else none

/-- Source memory for the C3 counterexample: the root table lives in the
frame starting at address 0; its entry 0 is invalid (raw 0) and its entry 1
is the leaf PTE 15 = VALID | READABLE | WRITEABLE | EXECUTABLE. Everything
else (including the yet-unallocated target frame) reads 0. -/
def memC3 : Mem := fun f i => if f = 0 ∧ i = 1 then 15 else 0

/-- C3: the claim states that after `borrow_memory`, for every leaf PTE of
the source tree the *corresponding* PTE of the cloned tree equals the source
PTE with the writable bit cleared, and the source PTE is unchanged. The code
refutes the correspondence: `borrow_memory` enumerates the *filtered*
(valid-only) entry iterator, so each borrowed PTE is written at the compacted
target index, not at the source entry's index. On a root table whose entry 0
is invalid and whose entry 1 is the leaf PTE 15, the clone ends up with the
borrowed PTE `pteBorrow 15 = 11` at index 0 and an untouched (invalid, raw 0)
entry at the corresponding index 1, while the source entry 1 does remain 15.
The map equality records: (source entry 1 after the clone, clone entry 1,
clone entry 0). -/
theorem C3_borrow_memory_misplaces_cloned_ptes :
    (borrowTable PTE_COUNT 1 memC3 1 0).map (fun r =>
        (lookupPte PTE_COUNT r.1 0 [1],
         lookupPte PTE_COUNT r.1 r.2.2 [1],
         lookupPte PTE_COUNT r.1 r.2.2 [0]))
      = some (some 15, some 0, some (pteBorrow 15)) ∧
    (some 0 : Option Nat) ≠ some (pteBorrow 15) := by
  constructor
  · set_option maxRecDepth 8000 in rfl
  · decide

end XrsOs
